import Mathlib

/-!
Verification development for the Gemini vendor path of the codex-rs API layer.

Shallow embedding of:
- `src/codex-rs/codex-api/src/sse/gemini.rs` (`process_gemini_sse`, `append_assistant_text`)
- `src/codex-rs/codex-api/src/endpoint/gemini.rs` (`emit_gemini_events`)
- `src/codex-rs/codex-api/src/requests/gemini.rs` (`GeminiRequestBuilder::build`,
  `map_role_to_gemini`, `content_items_to_parts`)
- `src/codex-rs/core/src/security_deny_list.rs` (`check_command_against_deny_list`)

Conventions of the embedding:
- Rust `Vec` / slices become `List`; `Option` stays `Option`; `Result<_, ApiError>`
  becomes the explicit `ChanItem` sum mirroring the channel items.
- `serde_json::Value` payloads that the code only passes through (the `args` of a
  Gemini function call) are represented by their serialized JSON text; where the
  code inspects JSON structure (the request builder) an explicit `Json` inductive
  is used, and the external `serde_json::from_str` argument parser is an abstract
  parameter `parseJson : String → Option Json`.
- The asynchronous channel sends become list elements, in send order; the
  producer's early `return`s become a `halted` flag on the runner.
-/

/-! ## Normalized protocol model (`codex_protocol::models`, `codex_protocol::protocol`) -/

/-- `codex_protocol::models::ContentItem`. -/
inductive ContentItem where
  | inputText (text : String)
  | inputImage (imageUrl : String)
  | outputText (text : String)
deriving DecidableEq, Repr

/-- `codex_protocol::models::FunctionCallOutputContentItem`. -/
inductive FunctionCallOutputContentItem where
  | inputText (text : String)
  | inputImage (imageUrl : String)
deriving DecidableEq, Repr

/-- The payload of `ResponseItem::FunctionCallOutput` (`content` plus optional
`content_items`). -/
structure FunctionCallOutputPayload where
  content : String
  contentItems : Option (List FunctionCallOutputContentItem)
deriving DecidableEq, Repr

/-- `codex_protocol::protocol::TokenUsage`; i64 counters become `Int`. -/
structure TokenUsage where
  inputTokens : Int
  outputTokens : Int
  cachedInputTokens : Int
  reasoningOutputTokens : Int
  totalTokens : Int
deriving DecidableEq, Repr

/-- `codex_protocol::models::ResponseItem`. The variants the Gemini builder skips
(`LocalShellCall`, `CustomToolCall`, … , `Other`) carry no payload here because
none of the embedded code reads their fields. -/
inductive ResponseItem where
  | message (id : Option String) (role : String) (content : List ContentItem)
  | functionCall (id : Option String) (name : String) (arguments : String)
      (callId : String) (thoughtSignature : Option String)
  | functionCallOutput (callId : String) (output : FunctionCallOutputPayload)
  | localShellCall
  | customToolCall
  | customToolCallOutput
  | reasoning
  | webSearchCall
  | ghostSnapshot
  | compactionSummary
  | other
deriving Repr

/-- `crate::common::ResponseEvent` (the variants the Gemini paths emit). -/
inductive ResponseEvent where
  | outputItemAdded (item : ResponseItem)
  | outputTextDelta (text : String)
  | outputItemDone (item : ResponseItem)
  | completed (responseId : String) (tokenUsage : Option TokenUsage)
deriving Repr

/-- `crate::error::ApiError` (the variants the Gemini paths emit). -/
inductive ApiError where
  | stream (msg : String)
  | contextWindowExceeded
deriving DecidableEq, Repr

/-- One item sent on the event channel: `Result<ResponseEvent, ApiError>`. -/
inductive ChanItem where
  | ok (ev : ResponseEvent)
  | error (e : ApiError)
deriving Repr

/-! ## Gemini wire structures (shared by `sse/gemini.rs` and `endpoint/gemini.rs`)

The two files declare structurally identical deserializers (the endpoint one
lacks `thoughtSignature` and uses i32 usage counters; both differences are noted
at the use sites). -/

/-- `GeminiFunctionCall`. `args : Option<serde_json::Value>` is represented by
its serialized JSON text (the code only ever re-serializes it). -/
structure GeminiFunctionCall where
  name : String
  args : Option String
  thoughtSignature : Option String
deriving DecidableEq, Repr

/-- `GeminiPart`. -/
structure GeminiPart where
  text : Option String
  functionCall : Option GeminiFunctionCall
deriving DecidableEq, Repr

/-- `GeminiContent`. -/
structure GeminiContent where
  role : Option String
  parts : Option (List GeminiPart)
deriving Repr

/-- `GeminiCandidate`. -/
structure GeminiCandidate where
  content : Option GeminiContent
  finishReason : Option String
deriving Repr

/-- `GeminiUsageMetadata`. -/
structure GeminiUsageMetadata where
  promptTokenCount : Option Int
  candidatesTokenCount : Option Int
  totalTokenCount : Option Int
deriving DecidableEq, Repr

/-- `GeminiResponse` (candidates plus usage; the endpoint's dead
`model_version` / `response_id` fields are unread and omitted). -/
structure GeminiResponse where
  candidates : Option (List GeminiCandidate)
  usageMetadata : Option GeminiUsageMetadata
deriving Repr

/-- The `TokenUsage` both emitters build from usage metadata (`unwrap_or(0)`,
cached and reasoning counters pinned to 0). -/
def mkTokenUsage (u : GeminiUsageMetadata) : TokenUsage :=
  { inputTokens := u.promptTokenCount.getD 0
    outputTokens := u.candidatesTokenCount.getD 0
    cachedInputTokens := 0
    reasoningOutputTokens := 0
    totalTokens := u.totalTokenCount.getD 0 }

/-- The `"{}"` fallback string used for absent/unserializable arguments. -/
def emptyObjStr : String := "\x7b\x7d"

/-! ## Streaming parser state machine (`sse/gemini.rs`, `process_gemini_sse`) -/

/-- The mutable locals of `process_gemini_sse`. -/
structure SseState where
  assistantItem : Option ResponseItem
  completedSent : Bool
  lastUsage : Option GeminiUsageMetadata
  functionCallCounter : Nat
deriving Repr

def initSseState : SseState :=
  { assistantItem := none, completedSent := false, lastUsage := none
    functionCallCounter := 0 }

/-- `append_assistant_text`: open a fresh empty assistant message (emitting
`OutputItemAdded`) if none is pending, then push the fragment onto the pending
message's content and emit `OutputTextDelta`. -/
def appendAssistantText (st : SseState) (text : String) : List ChanItem × SseState :=
  let (added, st) :=
    match st.assistantItem with
    | none =>
        let item := ResponseItem.message none "assistant" []
        ([ChanItem.ok (.outputItemAdded item)], { st with assistantItem := some item })
    | some _ => ([], st)
  match st.assistantItem with
  | some (.message id role content) =>
      let grown := ResponseItem.message id role (content ++ [ContentItem.outputText text])
      (added ++ [ChanItem.ok (.outputTextDelta text)],
       { st with assistantItem := some grown })
  | _ => (added, st)

/-- `assistant_item.take()` flush: emit `OutputItemDone` for the pending
assistant message, if any. -/
def flushAssistant (st : SseState) : List ChanItem × SseState :=
  match st.assistantItem with
  | some item => ([ChanItem.ok (.outputItemDone item)], { st with assistantItem := none })
  | none => ([], st)

/-- The function-call branch of the part loop: flush any pending assistant
message, bump the local counter, synthesize `gemini_call_<n>`, serialize the
arguments (falling back to `"{}"`), and emit the call's `OutputItemDone`. -/
def sseFunctionCallEvents (st : SseState) (fc : GeminiFunctionCall) :
    List ChanItem × SseState :=
  let (flushEvs, st) := flushAssistant st
  let counter := st.functionCallCounter + 1
  let callId := "gemini_call_" ++ toString counter
  let arguments := fc.args.getD emptyObjStr
  let item := ResponseItem.functionCall none fc.name arguments callId fc.thoughtSignature
  (flushEvs ++ [ChanItem.ok (.outputItemDone item)],
   { st with functionCallCounter := counter })

/-- One iteration of `for part in parts`: the text branch (non-empty text only)
then the function-call branch. -/
def ssePart (st : SseState) (p : GeminiPart) : List ChanItem × SseState :=
  let (evs1, st) :=
    match p.text with
    | some t => if t ≠ "" then appendAssistantText st t else ([], st)
    | none => ([], st)
  match p.functionCall with
  | some fc =>
      let (evs2, st) := sseFunctionCallEvents st fc
      (evs1 ++ evs2, st)
  | none => (evs1, st)

def sseParts (st : SseState) : List GeminiPart → List ChanItem × SseState
  | [] => ([], st)
  | p :: ps =>
      let (e1, st1) := ssePart st p
      let (e2, st2) := sseParts st1 ps
      (e1 ++ e2, st2)

/-- The `finish_reason` match: `STOP` flushes and emits at most one `Completed`
(consuming `last_usage`); `MAX_TOKENS` and `SAFETY` emit a fatal error and halt
(`return`); anything else is logged and ignored. The `Bool` is the halt flag. -/
def sseFinish (st : SseState) (reason : String) : List ChanItem × SseState × Bool :=
  if reason = "STOP" then
    let (evs, st) := flushAssistant st
    if st.completedSent then (evs, st, false)
    else
      let usage := st.lastUsage.map mkTokenUsage
      (evs ++ [ChanItem.ok (.completed "" usage)],
       { st with completedSent := true, lastUsage := none }, false)
  else if reason = "MAX_TOKENS" then
    ([ChanItem.error .contextWindowExceeded], st, true)
  else if reason = "SAFETY" then
    ([ChanItem.error (.stream "Response blocked by safety filters")], st, true)
  else
    ([], st, false)

/-- One candidate: content parts first, then the finish reason. -/
def sseCandidate (st : SseState) (c : GeminiCandidate) : List ChanItem × SseState × Bool :=
  let (evs1, st1) :=
    match c.content with
    | some content =>
        match content.parts with
        | some parts => sseParts st parts
        | none => ([], st)
    | none => ([], st)
  match c.finishReason with
  | some r =>
      let (evs2, st2, halt) := sseFinish st1 r
      (evs1 ++ evs2, st2, halt)
  | none => (evs1, st1, false)

def sseCandidates (st : SseState) : List GeminiCandidate → List ChanItem × SseState × Bool
  | [] => ([], st, false)
  | c :: cs =>
      let (e1, st1, h) := sseCandidate st c
      if h then (e1, st1, true)
      else
        let (e2, st2, h2) := sseCandidates st1 cs
        (e1 ++ e2, st2, h2)

/-- One SSE chunk, after the transport and `serde_json::from_str` step. -/
inductive ChunkData where
  | emptyData
  | malformed
  | parsed (r : GeminiResponse)
deriving Repr

/-- One poll of the source stream: a transport error (`Ok(Some(Err(_)))`), an
idle-timeout firing (`Err(_)` of `timeout`), or a delivered chunk. End of input
(`Ok(None)`) is the end of the list. -/
inductive ChunkEvent where
  | chunkErr (msg : String)
  | idleTimeout
  | chunk (d : ChunkData)
deriving Repr

/-- The body of the loop for one delivered chunk: skip blank or unparsable data,
store usage metadata, then process the candidates. -/
def sseChunkData (st : SseState) (d : ChunkData) : List ChanItem × SseState × Bool :=
  match d with
  | .emptyData => ([], st, false)
  | .malformed => ([], st, false)
  | .parsed r =>
      let st :=
        match r.usageMetadata with
        | some u => { st with lastUsage := some u }
        | none => st
      match r.candidates with
      | none => ([], st, false)
      | some cs => sseCandidates st cs

/-- The `Ok(None)` arm: flush any pending message and, if no `Completed` was
sent yet, synthesize one from the last-seen usage. -/
def sseEndOfInput (st : SseState) : List ChanItem :=
  let (evs, st) := flushAssistant st
  if st.completedSent then evs
  else evs ++ [ChanItem.ok (.completed "" (st.lastUsage.map mkTokenUsage))]

/-- The whole `process_gemini_sse` loop: events sent, final state, and whether
the producer halted early (a `return` before end of input). -/
def sseRun (st : SseState) : List ChunkEvent → List ChanItem × SseState × Bool
  | [] => (sseEndOfInput st, st, false)
  | .chunkErr m :: _ => ([ChanItem.error (.stream m)], st, true)
  | .idleTimeout :: _ =>
      ([ChanItem.error (.stream "idle timeout waiting for SSE")], st, true)
  | .chunk d :: rest =>
      let (e1, st1, h) := sseChunkData st d
      if h then (e1, st1, true)
      else
        let (e2, st2, h2) := sseRun st1 rest
        (e1 ++ e2, st2, h2)

/-- `process_gemini_sse` from the initial state: the event sequence delivered to
the consumer. -/
def processGeminiSse (chunks : List ChunkEvent) : List ChanItem :=
  (sseRun initSseState chunks).1

/-! ## Batch emitter (`endpoint/gemini.rs`, `emit_gemini_events`) -/

/-- One iteration of the batch part loop: collect non-empty text (emitting the
delta), then emit function calls immediately. The batch deserializer has no
`thoughtSignature` field, so the emitted call item carries `none`. -/
def batchPart (counter : Nat) (textParts : List String) (p : GeminiPart) :
    List ChanItem × Nat × List String :=
  let (evs1, textParts) :=
    match p.text with
    | some t =>
        if t ≠ "" then ([ChanItem.ok (.outputTextDelta t)], textParts ++ [t])
        else ([], textParts)
    | none => ([], textParts)
  match p.functionCall with
  | some fc =>
      let counter := counter + 1
      let callId := "gemini_call_" ++ toString counter
      let arguments := fc.args.getD emptyObjStr
      let item := ResponseItem.functionCall none fc.name arguments callId none
      (evs1 ++ [ChanItem.ok (.outputItemDone item)], counter, textParts)
  | none => (evs1, counter, textParts)

def batchParts (counter : Nat) (textParts : List String) :
    List GeminiPart → List ChanItem × Nat × List String
  | [] => ([], counter, textParts)
  | p :: ps =>
      let (e1, c1, t1) := batchPart counter textParts p
      let (e2, c2, t2) := batchParts c1 t1 ps
      (e1 ++ e2, c2, t2)

/-- The content block of one batch candidate: run the part loop, then emit one
aggregated assistant message (joined text) if any text was collected. -/
def batchCandidateContent (counter : Nat) (c : GeminiCandidate) : List ChanItem × Nat :=
  match c.content with
  | some content =>
      match content.parts with
      | some parts =>
          let (evs, counter, textParts) := batchParts counter [] parts
          if textParts.isEmpty then (evs, counter)
          else
            let fullText := String.join textParts
            let message := ResponseItem.message none "assistant"
              [ContentItem.outputText fullText]
            (evs ++ [ChanItem.ok (.outputItemDone message)], counter)
      | none => ([], counter)
  | none => ([], counter)

/-- The batch finish-reason check (after content): `MAX_TOKENS` / `SAFETY` emit
a fatal error and return; everything else (including `STOP`) is ignored. -/
def batchFinish (c : GeminiCandidate) : List ChanItem × Bool :=
  match c.finishReason with
  | some r =>
      if r = "MAX_TOKENS" then ([ChanItem.error .contextWindowExceeded], true)
      else if r = "SAFETY" then
        ([ChanItem.error (.stream "Response blocked by safety filters")], true)
      else ([], false)
  | none => ([], false)

def batchCandidates (counter : Nat) : List GeminiCandidate → List ChanItem × Bool
  | [] => ([], false)
  | c :: cs =>
      let (e1, counter1) := batchCandidateContent counter c
      let (e2, h) := batchFinish c
      if h then (e1 ++ e2, true)
      else
        let (e3, h3) := batchCandidates counter1 cs
        (e1 ++ e2 ++ e3, h3)

/-- `emit_gemini_events`: replay a full non-streaming response, then emit the
final `Completed` with the response's usage metadata (unless a fatal finish
reason returned early). -/
def emitGeminiEvents (r : GeminiResponse) : List ChanItem :=
  let (evs, halted) :=
    match r.candidates with
    | some cs => batchCandidates 0 cs
    | none => ([], false)
  if halted then evs
  else evs ++ [ChanItem.ok (.completed "" (r.usageMetadata.map mkTokenUsage))]

/-! ## Security deny list (`core/src/security_deny_list.rs`) -/

/-- Character-list prefix test (kept first-principles for easy evaluation). -/
def listStartsWith : List Char → List Char → Bool
  | [], _ => true
  | _ :: _, [] => false
  | p :: ps, c :: cs => p = c && listStartsWith ps cs

/-- Character-list substring test. -/
def listHasInfix (pat : List Char) : List Char → Bool
  | [] => listStartsWith pat []
  | c :: cs => listStartsWith pat (c :: cs) || listHasInfix pat cs

/-- Split a character list at every occurrence of one separator character
(char-level counterpart of `split`, structurally recursive so proofs can
evaluate it). `acc` is the current piece, reversed. -/
def splitOnCharAux (sep : Char) : List Char → List Char → List (List Char)
  | [], acc => [acc.reverse]
  | c :: cs, acc =>
      if c = sep then acc.reverse :: splitOnCharAux sep cs []
      else splitOnCharAux sep cs (c :: acc)

/-- Split a character list at every `&&` (char-level counterpart of
`split("&&")`). -/
def splitAmpAmp : List Char → List Char → List (List Char)
  | [], acc => [acc.reverse]
  | ['&'], acc => [('&' :: acc).reverse]
  | '&' :: '&' :: cs, acc => acc.reverse :: splitAmpAmp cs []
  | c :: cs, acc => splitAmpAmp cs (c :: acc)

/-- Split a character list at the first occurrence of `sep` (char-level
counterpart of `find` + slicing): `none` when `sep` does not occur. -/
def chSplitFirst (sep : Char) : List Char → Option (List Char × List Char)
  | [] => none
  | c :: cs =>
      if c = sep then some ([], cs)
      else (chSplitFirst sep cs).map (fun p => (c :: p.1, p.2))

/-- The piece before the first occurrence of `sep` (char-level counterpart of
`split(sep).next()`, which is always `Some`). -/
def chTakeUntil (sep : Char) : List Char → List Char
  | [] => []
  | c :: cs => if c = sep then [] else c :: chTakeUntil sep cs

/-- `join(" ")` on an argv list (structurally recursive counterpart of the
standard joiner). -/
def joinSpace : List String → String
  | [] => ""
  | [w] => w
  | w :: ws => w ++ " " ++ joinSpace ws

/-- A compiled `regex::Regex` from the policy: its pattern source (what
`ToString` returns) and its match predicate. The regex engine is an external
crate, so the predicate is carried abstractly as a function. -/
structure DenyPattern where
  source : String
  matchesStr : String → Bool

/-- `crate::config::types::SecurityPolicy` (invalid patterns were already
filtered out at construction time). -/
structure SecurityPolicy where
  denyCommands : List DenyPattern
  forbiddenCommands : List DenyPattern

/-- `DenyListCheckResult`. -/
inductive DenyListCheckResult where
  | allowed
  | requiresApproval (matchedPattern : String)
  | forbidden (matchedPattern : String)
deriving DecidableEq, Repr

/-- `find_matching_pattern`: first pattern matching the joined command string,
returned as its source text. -/
def findMatchingPattern (commandStr : String) (patterns : List DenyPattern) :
    Option String :=
  (patterns.find? (fun p => p.matchesStr commandStr)).map (fun p => p.source)

/-- Modelled from the spec: `parse_shell_lc_plain_commands` (in `crate::bash`,
whose source is not part of this excerpt). Spec §6: shell-wrapper commands
(`interpreter -c "cmd1 && cmd2"`) are decomposed into inner plain commands.
A three-element `[interpreter, -c-style flag, script]` wrapper splits the
script on `&&` into whitespace-separated argv lists; any other shape is not a
wrapper (`none`). -/
def parseShellLcPlainCommands (command : List String) :
    Option (List (List String)) :=
  match command with
  | [interp, flag, script] =>
      if (interp = "bash" ∨ interp = "zsh" ∨ interp = "sh") ∧
          (flag = "-lc" ∨ flag = "-c") then
        some ((splitAmpAmp script.data []).map (fun piece =>
          ((splitOnCharAux ' ' piece []).filter (fun w => w ≠ [])).map (fun w => String.mk w)))
      else none
  | _ => none

/-- The per-inner-command loop of `check_command_against_deny_list`: forbidden
patterns first (higher priority), then deny patterns, else next command. -/
def checkCommands (policy : SecurityPolicy) :
    List (List String) → DenyListCheckResult
  | [] => .allowed
  | cmd :: rest =>
      let commandStr := joinSpace cmd
      match findMatchingPattern commandStr policy.forbiddenCommands with
      | some m => .forbidden m
      | none =>
          match findMatchingPattern commandStr policy.denyCommands with
          | some m => .requiresApproval m
          | none => checkCommands policy rest

/-- `check_command_against_deny_list`: decompose shell wrappers (falling back to
the command itself) and check each inner command in order. -/
def checkCommandAgainstDenyList (command : List String)
    (policy : SecurityPolicy) : DenyListCheckResult :=
  checkCommands policy ((parseShellLcPlainCommands command).getD [command])

/-- A literal-text regex such as `"rm"` or `"git push --force"`: matching is
substring containment. Used to instantiate concrete policies. -/
def substrPattern (pat : String) : DenyPattern :=
  { source := pat, matchesStr := fun s => listHasInfix pat.toList s.toList }

/-! ## Request builder (`requests/gemini.rs`) -/

/-- A `serde_json::Value`, for the places where the builder inspects or builds
JSON structure. -/
inductive Json where
  | null
  | bool (b : Bool)
  | num (n : Int)
  | str (s : String)
  | arr (elems : List Json)
  | obj (fields : List (String × Json))
deriving Repr

/-- `serde_json::Value::get` on an object key (`None` on non-objects). -/
def jsonGet (j : Json) (key : String) : Option Json :=
  match j with
  | .obj fields => (fields.find? (fun f => f.1 = key)).map (fun f => f.2)
  | _ => none

/-- `map_role_to_gemini`. -/
def mapRoleToGemini (role : String) : String :=
  if role = "user" then "user"
  else if role = "assistant" then "model"
  else if role = "system" then "user"
  else if role = "tool" then "user"
  else "user"

/-- `content_items_to_parts`: text parts (empty text suppressed); data-URL
images split at the first `,` into a `;`-delimited metadata prefix (after
`data:`) and the payload, dropped when there is no comma; remote-URL images
become `fileData` with the hardcoded `image/jpeg` MIME type. -/
def contentItemsToParts (content : List ContentItem) : List Json :=
  content.filterMap (fun item =>
    match item with
    | .inputText text | .outputText text =>
        if text = "" then none else some (Json.obj [("text", .str text)])
    | .inputImage imageUrl =>
        if listStartsWith ("data:".data) imageUrl.data then
          match chSplitFirst ',' imageUrl.data with
          | none => none
          | some (before, after) =>
              let metadata := before.drop 5
              let data := String.mk after
              let mimeType := String.mk (chTakeUntil ';' metadata)
              some (Json.obj [("inlineData", Json.obj
                [("mimeType", .str mimeType), ("data", .str data)])])
        else
          some (Json.obj [("fileData", Json.obj
            [("fileUri", .str imageUrl), ("mimeType", .str "image/jpeg")])]))

/-- `HashMap::insert` on the `call_id → name` lookup, as an association list:
replace the existing binding or append a new one. -/
def insertName : List (String × String) → String → String → List (String × String)
  | [], k, v => [(k, v)]
  | (k', v') :: rest, k, v =>
      if k' = k then (k, v) :: rest else (k', v') :: insertName rest k v

/-- `HashMap::get` on the lookup: the (unique) binding for the key. -/
def lookupName : List (String × String) → String → Option String
  | [], _ => none
  | (k', v) :: rest, k => if k' = k then some v else lookupName rest k

/-- The first pass of `build`: collect function-call names by `call_id`. -/
def functionCallNames (input : List ResponseItem) : List (String × String) :=
  input.foldl
    (fun m i =>
      match i with
      | .functionCall _ name _ callId _ => insertName m callId name
      | _ => m)
    []

/-- The vendor shape of one `FunctionCallOutput`: a user-role `functionResponse`
whose response is either the flattened text parts (images dropped) or the plain
string output. -/
def renderFunctionResponse (functionName : String)
    (output : FunctionCallOutputPayload) : Json :=
  let responseValue :=
    match output.contentItems with
    | some items =>
        let parts := items.filterMap (fun it =>
          match it with
          | .inputText text => some (Json.obj [("text", .str text)])
          | .inputImage _ => none)
        Json.obj [("parts", .arr parts)]
    | none => Json.obj [("output", .str output.content)]
  Json.obj [("role", .str "user"), ("parts", .arr
    [Json.obj [("functionResponse", Json.obj
      [("name", .str functionName), ("response", responseValue)])]])]

/-- The second pass of `build`, for one item: the vendor content pushed for it,
or `none` for items that are dropped/skipped. `parseJson` is the external
`serde_json::from_str` used on function-call arguments. -/
def renderItem (parseJson : String → Option Json)
    (names : List (String × String)) (item : ResponseItem) : Option Json :=
  match item with
  | .message _ role content =>
      let parts := contentItemsToParts content
      if parts.isEmpty then none
      else some (Json.obj [("role", .str (mapRoleToGemini role)), ("parts", .arr parts)])
  | .functionCall _ name arguments _ _ =>
      let args := (parseJson arguments).getD (Json.obj [])
      some (Json.obj [("role", .str "model"), ("parts", .arr
        [Json.obj [("functionCall", Json.obj
          [("name", .str name), ("args", args)])]])])
  | .functionCallOutput callId output =>
      let functionName := (lookupName names callId).getD "unknown"
      some (renderFunctionResponse functionName output)
  | _ => none

/-- The assembled request: body and the model for the URL path. The
conversation headers come from `requests/headers.rs`, which no claim touches,
so they are not embedded. -/
structure GeminiRequest where
  body : Json
  model : String

/-- The tool translation of `build`: OpenAI-format tools with a `function`
field become Gemini function declarations; others are skipped. -/
def toolDeclarations (tools : List Json) : List Json :=
  tools.filterMap (fun tool =>
    match jsonGet tool "function" with
    | some func =>
        some (Json.obj
          [("name", (jsonGet func "name").getD .null),
           ("description", (jsonGet func "description").getD .null),
           ("parameters", (jsonGet func "parameters").getD .null)])
    | none => none)

/-- `GeminiRequestBuilder::build`: first pass for the `call_id → name` lookup,
second pass rendering each item, then the optional `systemInstruction` and
`tools` fields. The function never fails (always `Ok`). -/
def buildGeminiRequest (parseJson : String → Option Json)
    (model instructions : String) (input : List ResponseItem)
    (tools : List Json) : Except ApiError GeminiRequest :=
  let names := functionCallNames input
  let contents := input.filterMap (renderItem parseJson names)
  let baseFields := [("contents", Json.arr contents)]
  let fields1 :=
    if instructions = "" then baseFields
    else baseFields ++ [("systemInstruction", Json.obj
      [("parts", Json.arr [Json.obj [("text", Json.str instructions)]])])]
  let decls := toolDeclarations tools
  let fields2 :=
    if tools.isEmpty then fields1
    else if decls.isEmpty then fields1
    else fields1 ++ [("tools", Json.arr
      [Json.obj [("functionDeclarations", Json.arr decls)]])]
  .ok { body := Json.obj fields2, model := model }

/-! ## Observations on event sequences -/

/-- Is this channel item an error? -/
def isErrItem : ChanItem → Bool
  | .error _ => true
  | .ok _ => false

/-- A stream is successful when no fatal error was sent. -/
def noError (out : List ChanItem) : Bool := out.all (fun i => !(isErrItem i))

def isCompletedItem : ChanItem → Bool
  | .ok (.completed _ _) => true
  | _ => false

def countCompleted (out : List ChanItem) : Nat := (out.filter isCompletedItem).length

def isAddedItem : ChanItem → Bool
  | .ok (.outputItemAdded _) => true
  | _ => false

def countAdded (out : List ChanItem) : Nat := (out.filter isAddedItem).length

/-- An `OutputItemDone` carrying an assistant `Message`. -/
def isMsgDoneItem : ChanItem → Bool
  | .ok (.outputItemDone (.message _ _ _)) => true
  | _ => false

def countMsgDone (out : List ChanItem) : Nat := (out.filter isMsgDoneItem).length

/-- The payloads of the `OutputTextDelta` events, in order. -/
def deltaTexts (out : List ChanItem) : List String :=
  out.filterMap (fun i =>
    match i with
    | .ok (.outputTextDelta t) => some t
    | _ => none)

/-- The content lists of the `OutputItemDone(Message)` events, in order. -/
def msgDoneContents (out : List ChanItem) : List (List ContentItem) :=
  out.filterMap (fun i =>
    match i with
    | .ok (.outputItemDone (.message _ _ c)) => some c
    | _ => none)

/-- The text carried by one content part. -/
def contentText : ContentItem → String
  | .outputText t => t
  | .inputText t => t
  | .inputImage _ => ""

/-- The texts of a message's content parts, in order. -/
def contentTexts (content : List ContentItem) : List String := content.map contentText

/-- Concatenation of a list of strings (`join("")`). -/
def strConcat : List String → String
  | [] => ""
  | s :: rest => s ++ strConcat rest

/-- The full text of a message's content. -/
def contentFullText (content : List ContentItem) : String := strConcat (contentTexts content)

/-- `MAX_TOKENS` errors sent. -/
def countCWE (out : List ChanItem) : Nat :=
  (out.filter (fun i =>
    match i with
    | .error .contextWindowExceeded => true
    | _ => false)).length

/-- Whether the last item of the stream is a `Completed` event. -/
def lastIsCompleted (out : List ChanItem) : Bool :=
  match out.getLast? with
  | some i => isCompletedItem i
  | none => false

/-! ## Deny-list claims -/

theorem checkCommands_allowed (policy : SecurityPolicy) :
    ∀ l : List (List String),
    l.all (fun cmd =>
      (findMatchingPattern (joinSpace cmd) policy.forbiddenCommands).isNone &&
      (findMatchingPattern (joinSpace cmd) policy.denyCommands).isNone) = true →
    checkCommands policy l = .allowed := by
  intro l
  induction l with
  | nil => intro _; rfl
  | cons cmd rest ih =>
      intro h
      simp only [List.all_cons, Bool.and_eq_true] at h
      obtain ⟨⟨hf, hd⟩, hrest⟩ := h
      rw [Option.isNone_iff_eq_none] at hf hd
      simpa [checkCommands, hf, hd] using ih hrest

theorem checkCommands_forbidden_of (policy : SecurityPolicy)
    (pre : List (List String)) (c : List String) (post : List (List String))
    (hpre : ∀ x ∈ pre,
      findMatchingPattern (joinSpace x) policy.forbiddenCommands = none ∧
      findMatchingPattern (joinSpace x) policy.denyCommands = none)
    (hc : (findMatchingPattern (joinSpace c) policy.forbiddenCommands).isSome
      = true) :
    ∃ q, checkCommands policy (pre ++ c :: post) = .forbidden q := by
  induction pre with
  | nil =>
      obtain ⟨m, hm⟩ := Option.isSome_iff_exists.mp hc
      exact ⟨m, by simp [checkCommands, hm]⟩
  | cons x rest ih =>
      obtain ⟨hf, hd⟩ := hpre x (by simp)
      obtain ⟨q, hq⟩ := ih (fun y hy => hpre y (by simp [hy]))
      exact ⟨q, by simpa [checkCommands, hf, hd] using hq⟩

theorem checkCommands_deny_of (policy : SecurityPolicy)
    (pre : List (List String)) (c : List String) (post : List (List String))
    (hpre : ∀ x ∈ pre,
      findMatchingPattern (joinSpace x) policy.forbiddenCommands = none)
    (hcF : findMatchingPattern (joinSpace c) policy.forbiddenCommands = none)
    (hcD : (findMatchingPattern (joinSpace c) policy.denyCommands).isSome
      = true) :
    ∃ q, checkCommands policy (pre ++ c :: post) = .requiresApproval q := by
  induction pre with
  | nil =>
      obtain ⟨m, hm⟩ := Option.isSome_iff_exists.mp hcD
      exact ⟨m, by simp [checkCommands, hcF, hm]⟩
  | cons x rest ih =>
      have hf := hpre x (by simp)
      obtain ⟨q, hq⟩ := ih (fun y hy => hpre y (by simp [hy]))
      cases hd : findMatchingPattern (joinSpace x) policy.denyCommands with
      | none => exact ⟨q, by simpa [checkCommands, hf, hd] using hq⟩
      | some m => exact ⟨m, by simp [checkCommands, hf, hd]⟩

/-- The counterexample policy for C6: `rm` is both denied and forbidden, and
`echo` is additionally denied. -/
def c6Policy : SecurityPolicy :=
  { denyCommands := [substrPattern "echo", substrPattern "rm"]
    forbiddenCommands := [substrPattern "rm"] }

def c6Command : List String := ["bash", "-lc", "echo hi && rm x"]

/-- C6 counterexample: in `bash -lc "echo hi && rm x"` the inner command
`rm x` matches BOTH a forbidden pattern and a deny pattern, yet the checker
returns `RequiresApproval "echo"` (the earlier inner command's deny match wins),
not `Forbidden` — refuting the claim as universally stated. -/
theorem c6_counterexample :
    (parseShellLcPlainCommands c6Command).getD [c6Command]
      = [["echo", "hi"], ["rm", "x"]] ∧
    (findMatchingPattern (joinSpace ["rm", "x"])
      c6Policy.forbiddenCommands).isSome = true ∧
    (findMatchingPattern (joinSpace ["rm", "x"])
      c6Policy.denyCommands).isSome = true ∧
    checkCommandAgainstDenyList c6Command c6Policy
      = .requiresApproval "echo" := by
  refine ⟨by decide, by decide, by decide, by decide⟩

/-- C6 (amended): when an inner command matches both a forbidden pattern and a
deny pattern, and no earlier inner command matched any pattern, the checker
returns `Forbidden` — forbidden takes precedence over deny for the same
command. In particular this holds for any plain (non-wrapper) command matching
both lists, such as `["rm","file.txt"]` with deny `"rm"` and forbidden `"rm"`. -/
theorem c6_forbidden_precedence (policy : SecurityPolicy) (command : List String)
    (pre : List (List String)) (c : List String) (post : List (List String))
    (hdec : (parseShellLcPlainCommands command).getD [command] = pre ++ c :: post)
    (hpre : ∀ x ∈ pre,
      findMatchingPattern (joinSpace x) policy.forbiddenCommands = none ∧
      findMatchingPattern (joinSpace x) policy.denyCommands = none)
    (hcF : (findMatchingPattern (joinSpace c) policy.forbiddenCommands).isSome
      = true)
    (_hcD : (findMatchingPattern (joinSpace c) policy.denyCommands).isSome
      = true) :
    ∃ q, checkCommandAgainstDenyList command policy = .forbidden q := by
  unfold checkCommandAgainstDenyList
  rw [hdec]
  exact checkCommands_forbidden_of policy pre c post hpre hcF

def c6RmPolicy : SecurityPolicy :=
  { denyCommands := [substrPattern "rm"], forbiddenCommands := [substrPattern "rm"] }

/-- Witness for C6: deny `"rm"`, forbidden `"rm"`, command `["rm","file.txt"]`
gives `Forbidden`. -/
theorem c6_forbidden_precedence_witness :
    ∃ q, checkCommandAgainstDenyList ["rm", "file.txt"] c6RmPolicy = .forbidden q :=
  c6_forbidden_precedence c6RmPolicy ["rm", "file.txt"] [] ["rm", "file.txt"] []
    (by decide) (by intro x hx; cases hx) (by decide) (by decide)

def c7Policy : SecurityPolicy :=
  { denyCommands := [substrPattern "git push --force"], forbiddenCommands := [] }

def c7Command : List String := ["bash", "-lc", "echo hi && git push --force && echo done"]

/-- C7: shell wrappers are decomposed into inner plain commands, each checked
independently: (1) if no inner command matches any pattern the result is
`Allowed`; (2) if an inner command matches a deny pattern and no inner command
up to and including it matches a forbidden pattern, the result is
`RequiresApproval` with a matched deny pattern; (3) concretely,
`bash -lc "echo hi && git push --force && echo done"` under deny pattern
`"git push --force"` is decomposed into three inner commands and yields
`RequiresApproval "git push --force"`. -/
theorem c7_shell_decomposition (policy : SecurityPolicy) (command : List String)
    (pre : List (List String)) (c : List String) (post : List (List String)) :
    (((parseShellLcPlainCommands command).getD [command]).all (fun cmd =>
        (findMatchingPattern (joinSpace cmd) policy.forbiddenCommands).isNone &&
        (findMatchingPattern (joinSpace cmd) policy.denyCommands).isNone) = true →
      checkCommandAgainstDenyList command policy = .allowed) ∧
    ((parseShellLcPlainCommands command).getD [command] = pre ++ c :: post →
      (∀ x ∈ pre,
        findMatchingPattern (joinSpace x) policy.forbiddenCommands = none) →
      findMatchingPattern (joinSpace c) policy.forbiddenCommands = none →
      (findMatchingPattern (joinSpace c) policy.denyCommands).isSome = true →
      ∃ q, checkCommandAgainstDenyList command policy = .requiresApproval q) ∧
    parseShellLcPlainCommands c7Command
      = some [["echo", "hi"], ["git", "push", "--force"], ["echo", "done"]] ∧
    checkCommandAgainstDenyList c7Command c7Policy
      = .requiresApproval "git push --force" := by
  refine ⟨?_, ?_, by decide, by decide⟩
  · intro h
    unfold checkCommandAgainstDenyList
    exact checkCommands_allowed policy _ h
  · intro hdec hpre hcF hcD
    unfold checkCommandAgainstDenyList
    rw [hdec]
    exact checkCommands_deny_of policy pre c post hpre hcF hcD

/-- Witness for C7: the deny branch applied to the concrete `bash -lc` command. -/
theorem c7_shell_decomposition_witness :
    ∃ q, checkCommandAgainstDenyList c7Command c7Policy = .requiresApproval q :=
  (c7_shell_decomposition c7Policy c7Command [["echo", "hi"]]
    ["git", "push", "--force"] [["echo", "done"]]).2.1
    (by decide)
    (by intro x hx; simp at hx; subst hx; decide)
    (by decide) (by decide)

/-! ## C10: image content parts -/

/-- C10: an image part whose URL is not a data URL becomes a `fileData` part
with the hardcoded `image/jpeg` MIME type regardless of the actual image type;
a data URL with no `,` separator is silently dropped. -/
theorem c10_image_mime_and_drop (url : String) :
    (listStartsWith ("data:".data) url.data = false →
      contentItemsToParts [ContentItem.inputImage url]
        = [Json.obj [("fileData", Json.obj
            [("fileUri", .str url), ("mimeType", .str "image/jpeg")])]]) ∧
    (listStartsWith ("data:".data) url.data = true →
      chSplitFirst ',' url.data = none →
      contentItemsToParts [ContentItem.inputImage url] = []) := by
  constructor
  · intro h
    simp [contentItemsToParts, h]
  · intro h hc
    simp [contentItemsToParts, h, hc]

/-- Witness for C10 at a remote URL and at a comma-free data URL. -/
theorem c10_image_mime_and_drop_witness :
    contentItemsToParts [ContentItem.inputImage "https://example.com/cat.png"]
      = [Json.obj [("fileData", Json.obj
          [("fileUri", .str "https://example.com/cat.png"),
           ("mimeType", .str "image/jpeg")])]] ∧
    contentItemsToParts [ContentItem.inputImage "data:image/png;base64"] = [] :=
  ⟨(c10_image_mime_and_drop "https://example.com/cat.png").1 (by decide),
   (c10_image_mime_and_drop "data:image/png;base64").2 (by decide) (by decide)⟩

/-! ## C8: malformed chunks are skipped -/

theorem sseRun_malformed_skip (post : List ChunkEvent) :
    ∀ (pre : List ChunkEvent) (st : SseState),
    sseRun st (pre ++ ChunkEvent.chunk ChunkData.malformed :: post)
      = sseRun st (pre ++ post) := by
  intro pre
  induction pre with
  | nil =>
      intro st
      rcases h2 : sseRun st post with ⟨e2, st2, hh⟩
      simp [sseRun, sseChunkData, h2]
  | cons ch rest ih =>
      intro st
      cases ch with
      | chunkErr m => simp [sseRun]
      | idleTimeout => simp [sseRun]
      | chunk d =>
          rcases hd : sseChunkData st d with ⟨e1, st1, h⟩
          cases h with
          | true => simp [sseRun, hd]
          | false => simp [sseRun, hd, ih st1]

/-- C8: a non-empty but unparsable chunk is skipped: it produces no events,
leaves the parser state (pending message, usage, counters) unchanged, does not
halt the stream, and the overall event sequence is as if the bad chunk had
never arrived. -/
theorem c8_malformed_chunk_skipped (pre post : List ChunkEvent) (st : SseState) :
    sseChunkData st ChunkData.malformed = ([], st, false) ∧
    processGeminiSse (pre ++ ChunkEvent.chunk ChunkData.malformed :: post)
      = processGeminiSse (pre ++ post) :=
  ⟨rfl, by unfold processGeminiSse; rw [sseRun_malformed_skip]⟩

/-! ## C5: function-call name resolution in the request builder -/

/-- Is this item a `FunctionCall` with the given `call_id`? -/
def fcWithId (cid : String) : ResponseItem → Bool
  | .functionCall _ _ _ callId _ => callId = cid
  | _ => false

/-- Every `FunctionCall` with the given `call_id` is named `n`. -/
def fcIdNamed (cid n : String) : ResponseItem → Bool
  | .functionCall _ name _ callId _ => callId ≠ cid || name = n
  | _ => true

theorem lookupName_insertName (m : List (String × String)) (k v k' : String) :
    lookupName (insertName m k v) k' = if k' = k then some v else lookupName m k' := by
  induction m with
  | nil =>
      by_cases h : k' = k
      · subst h; simp [insertName, lookupName]
      · simp [insertName, lookupName, h, Ne.symm h]
  | cons p rest ih =>
      obtain ⟨k1, v1⟩ := p
      by_cases h1 : k1 = k
      · subst h1
        by_cases h : k1 = k'
        · subst h; simp [insertName, lookupName]
        · simp [insertName, lookupName, h, Ne.symm h]
      · by_cases h : k1 = k'
        · subst h
          simp [insertName, lookupName, h1, Ne.symm h1]
        · simp [insertName, lookupName, h1, h, ih]

def fcNamesStep (m : List (String × String)) (i : ResponseItem) :
    List (String × String) :=
  match i with
  | .functionCall _ name _ callId _ => insertName m callId name
  | _ => m

theorem functionCallNames_eq_foldl (input : List ResponseItem) :
    functionCallNames input = input.foldl fcNamesStep [] := rfl

theorem lookupName_fcNamesStep_skip (m : List (String × String))
    (i : ResponseItem) (cid : String) (h : fcWithId cid i = false) :
    lookupName (fcNamesStep m i) cid = lookupName m cid := by
  cases i with
  | functionCall id name args callId ts =>
      simp only [fcWithId, decide_eq_false_iff_not] at h
      simp only [fcNamesStep]
      rw [lookupName_insertName]
      simp [Ne.symm h]
  | message id role content => rfl
  | functionCallOutput callId output => rfl
  | localShellCall => rfl
  | customToolCall => rfl
  | customToolCallOutput => rfl
  | reasoning => rfl
  | webSearchCall => rfl
  | ghostSnapshot => rfl
  | compactionSummary => rfl
  | other => rfl

theorem lookupName_fcNamesStep_match (m : List (String × String))
    (i : ResponseItem) (cid n : String) (hfc : fcWithId cid i = true)
    (hnm : fcIdNamed cid n i = true) :
    lookupName (fcNamesStep m i) cid = some n := by
  cases i with
  | functionCall id name args callId ts =>
      simp only [fcWithId, decide_eq_true_eq] at hfc
      subst hfc
      have hname : name = n := by simpa [fcIdNamed] using hnm
      subst hname
      simp only [fcNamesStep]
      rw [lookupName_insertName]
      simp
  | message id role content => simp [fcWithId] at hfc
  | functionCallOutput callId output => simp [fcWithId] at hfc
  | localShellCall => simp [fcWithId] at hfc
  | customToolCall => simp [fcWithId] at hfc
  | customToolCallOutput => simp [fcWithId] at hfc
  | reasoning => simp [fcWithId] at hfc
  | webSearchCall => simp [fcWithId] at hfc
  | ghostSnapshot => simp [fcWithId] at hfc
  | compactionSummary => simp [fcWithId] at hfc
  | other => simp [fcWithId] at hfc

theorem lookupName_foldl_named (cid n : String) :
    ∀ (l : List ResponseItem) (m : List (String × String)),
    l.all (fcIdNamed cid n) = true →
    (lookupName m cid = some n ∨ l.any (fcWithId cid) = true) →
    lookupName (l.foldl fcNamesStep m) cid = some n := by
  intro l
  induction l with
  | nil =>
      intro m _ hdisj
      rcases hdisj with h | h
      · simpa using h
      · simp at h
  | cons i rest ih =>
      intro m hall hdisj
      simp only [List.all_cons, Bool.and_eq_true] at hall
      obtain ⟨hi, hrest⟩ := hall
      rw [List.foldl_cons]
      by_cases hfc : fcWithId cid i = true
      · exact ih _ hrest (Or.inl (lookupName_fcNamesStep_match m i cid n hfc hi))
      · have hskip := lookupName_fcNamesStep_skip m i cid
          (Bool.not_eq_true _ ▸ hfc)
        refine ih _ hrest ?_
        rcases hdisj with h | h
        · exact Or.inl (hskip.trans h)
        · simp only [List.any_cons, Bool.or_eq_true] at h
          rcases h with h | h
          · exact absurd h hfc
          · exact Or.inr h

theorem lookupName_foldl_absent (cid : String) :
    ∀ (l : List ResponseItem) (m : List (String × String)),
    l.all (fun i => !(fcWithId cid i)) = true →
    lookupName (l.foldl fcNamesStep m) cid = lookupName m cid := by
  intro l
  induction l with
  | nil => intro m _; rfl
  | cons i rest ih =>
      intro m hall
      simp only [List.all_cons, Bool.and_eq_true, Bool.not_eq_true'] at hall
      obtain ⟨hi, hrest⟩ := hall
      rw [List.foldl_cons, ih _ hrest, lookupName_fcNamesStep_skip m i cid hi]

/-- C5: every `FunctionCallOutput{call_id}` is rendered as a `functionResponse`
whose name is the name of the `FunctionCall` with the same `call_id` found
anywhere in the input (first pass over the whole input); when no such
`FunctionCall` exists the sentinel `"unknown"` is used; and the build always
succeeds, with the body's `contents` array being exactly the rendered items. -/
theorem c5_function_call_output_name (parseJson : String → Option Json)
    (input : List ResponseItem) (cid n : String)
    (output : FunctionCallOutputPayload) (model instructions : String)
    (tools : List Json) :
    (input.any (fcWithId cid) = true →
      input.all (fcIdNamed cid n) = true →
      renderItem parseJson (functionCallNames input)
          (.functionCallOutput cid output)
        = some (renderFunctionResponse n output)) ∧
    (input.all (fun i => !(fcWithId cid i)) = true →
      renderItem parseJson (functionCallNames input)
          (.functionCallOutput cid output)
        = some (renderFunctionResponse "unknown" output)) ∧
    (∃ req, buildGeminiRequest parseJson model instructions input tools = .ok req ∧
      jsonGet req.body "contents"
        = some (Json.arr (input.filterMap (renderItem parseJson (functionCallNames input))))) := by
  refine ⟨?_, ?_, ?_⟩
  · intro hany hall
    have hlook : lookupName (functionCallNames input) cid = some n := by
      rw [functionCallNames_eq_foldl]
      exact lookupName_foldl_named cid n input [] hall (Or.inr hany)
    simp [renderItem, hlook]
  · intro habs
    have hlook : lookupName (functionCallNames input) cid = none := by
      rw [functionCallNames_eq_foldl, lookupName_foldl_absent cid input [] habs]
      rfl
    simp [renderItem, hlook]
  · unfold buildGeminiRequest
    refine ⟨_, rfl, ?_⟩
    simp only [jsonGet]
    split_ifs <;> simp [List.find?]

def c5Input : List ResponseItem :=
  [ResponseItem.functionCall none "get_weather" emptyObjStr "call_123" none,
   ResponseItem.functionCallOutput "call_123" { content := "ok", contentItems := none }]

/-- Witness for C5: `FunctionCall{name="get_weather", call_id="call_123"}`
followed by `FunctionCallOutput{call_id="call_123"}` resolves to the function
name `"get_weather"`. -/
theorem c5_function_call_output_name_witness :
    renderItem (fun _ => none) (functionCallNames c5Input)
        (.functionCallOutput "call_123" { content := "ok", contentItems := none })
      = some (renderFunctionResponse "get_weather"
          { content := "ok", contentItems := none }) :=
  (c5_function_call_output_name (fun _ => none) c5Input "call_123" "get_weather"
    { content := "ok", contentItems := none } "gemini-pro" "" []).1
    (by decide) (by decide)

/-! ## Invariants of the streaming state machine -/

/-- 1 when `completed_sent` is set. -/
def completedNat (st : SseState) : Nat := if st.completedSent then 1 else 0

/-- 1 when an assistant item is pending. -/
def pendNat (st : SseState) : Nat := if st.assistantItem.isSome then 1 else 0

/-- The texts accumulated in the pending assistant message. -/
def pendingTexts (st : SseState) : List String :=
  match st.assistantItem with
  | some (.message _ _ c) => contentTexts c
  | _ => []

/-- A reachable parser state only ever holds a `Message` (or nothing) in
`assistant_item`. -/
def pendingWF (st : SseState) : Prop :=
  match st.assistantItem with
  | none => True
  | some (.message _ _ _) => True
  | some _ => False

theorem countCompleted_append (a b : List ChanItem) :
    countCompleted (a ++ b) = countCompleted a + countCompleted b := by
  simp [countCompleted, List.filter_append]

theorem countAdded_append (a b : List ChanItem) :
    countAdded (a ++ b) = countAdded a + countAdded b := by
  simp [countAdded, List.filter_append]

theorem countMsgDone_append (a b : List ChanItem) :
    countMsgDone (a ++ b) = countMsgDone a + countMsgDone b := by
  simp [countMsgDone, List.filter_append]

theorem countCWE_append (a b : List ChanItem) :
    countCWE (a ++ b) = countCWE a + countCWE b := by
  simp [countCWE, List.filter_append]

theorem deltaTexts_append (a b : List ChanItem) :
    deltaTexts (a ++ b) = deltaTexts a ++ deltaTexts b := by
  simp [deltaTexts]

theorem msgDoneContents_append (a b : List ChanItem) :
    msgDoneContents (a ++ b) = msgDoneContents a ++ msgDoneContents b := by
  simp [msgDoneContents]

theorem noError_append (a b : List ChanItem) :
    noError (a ++ b) = (noError a && noError b) := by
  simp [noError]

theorem contentTexts_append (a b : List ContentItem) :
    contentTexts (a ++ b) = contentTexts a ++ contentTexts b := by
  simp [contentTexts]

theorem strConcat_append (a b : List String) :
    strConcat (a ++ b) = strConcat a ++ strConcat b := by
  induction a with
  | nil => simp [strConcat]
  | cons s rest ih => simp [strConcat, ih, String.append_assoc]

theorem countCWE_eq_zero_of_noError (evs : List ChanItem)
    (h : noError evs = true) : countCWE evs = 0 := by
  induction evs with
  | nil => rfl
  | cons i rest ih =>
      simp only [noError, List.all_cons, Bool.and_eq_true] at h
      obtain ⟨hi, hrest⟩ := h
      cases i with
      | ok ev => simpa [countCWE, List.filter] using ih (by simpa [noError] using hrest)
      | error e => simp [isErrItem] at hi

/-- The bookkeeping every step of the streaming machine preserves:
`Completed` events track the `completed_sent` flag, `OutputItemAdded` /
message-`OutputItemDone` events track the pending item, delta texts track the
pending message content, and well-formedness of the pending item persists. -/
structure StepOk (st : SseState) (evs : List ChanItem) (st' : SseState) : Prop where
  completed : completedNat st + countCompleted evs = completedNat st'
  items : countAdded evs + pendNat st = countMsgDone evs + pendNat st'
  texts : ((msgDoneContents evs).map contentTexts).flatten ++ pendingTexts st'
      = pendingTexts st ++ deltaTexts evs
  wf : pendingWF st'

theorem stepOk_nil (st : SseState) (hwf : pendingWF st) : StepOk st [] st := by
  refine ⟨?_, ?_, ?_, hwf⟩ <;>
    simp [countCompleted, countAdded, countMsgDone, msgDoneContents, deltaTexts]

theorem StepOk.comp {st st1 st2 : SseState} {e1 e2 : List ChanItem}
    (h1 : StepOk st e1 st1) (h2 : StepOk st1 e2 st2) :
    StepOk st (e1 ++ e2) st2 := by
  refine ⟨?_, ?_, ?_, h2.wf⟩
  · rw [countCompleted_append]
    have a1 := h1.completed
    have a2 := h2.completed
    omega
  · rw [countAdded_append, countMsgDone_append]
    have a1 := h1.items
    have a2 := h2.items
    omega
  · rw [msgDoneContents_append, deltaTexts_append, List.map_append, List.flatten_append,
      List.append_assoc, h2.texts, ← List.append_assoc, h1.texts, List.append_assoc]

theorem stepOk_appendAssistantText (st : SseState) (t : String) (hwf : pendingWF st) :
    StepOk st (appendAssistantText st t).1 (appendAssistantText st t).2 := by
  rcases hA : st.assistantItem with _ | item
  · refine ⟨?_, ?_, ?_, ?_⟩ <;>
      simp [appendAssistantText, hA, completedNat, pendNat, pendingWF, pendingTexts,
        countCompleted, countAdded, countMsgDone, msgDoneContents, deltaTexts,
        contentTexts, isCompletedItem, isAddedItem, isMsgDoneItem, contentText,
        List.filter]
  · cases item with
    | message id role content =>
        refine ⟨?_, ?_, ?_, ?_⟩ <;>
          simp [appendAssistantText, hA, completedNat, pendNat, pendingWF, pendingTexts,
            countCompleted, countAdded, countMsgDone, msgDoneContents, deltaTexts,
            contentTexts_append, contentTexts, isCompletedItem, isAddedItem,
            isMsgDoneItem, contentText, List.filter]
    | functionCall id name args callId ts => simp [pendingWF, hA] at hwf
    | functionCallOutput callId output => simp [pendingWF, hA] at hwf
    | localShellCall => simp [pendingWF, hA] at hwf
    | customToolCall => simp [pendingWF, hA] at hwf
    | customToolCallOutput => simp [pendingWF, hA] at hwf
    | reasoning => simp [pendingWF, hA] at hwf
    | webSearchCall => simp [pendingWF, hA] at hwf
    | ghostSnapshot => simp [pendingWF, hA] at hwf
    | compactionSummary => simp [pendingWF, hA] at hwf
    | other => simp [pendingWF, hA] at hwf

theorem noError_appendAssistantText (st : SseState) (t : String) :
    noError (appendAssistantText st t).1 = true := by
  rcases hA : st.assistantItem with _ | item
  · simp [appendAssistantText, hA, noError, isErrItem]
  · cases item <;>
      simp [appendAssistantText, hA, noError, isErrItem]

theorem stepOk_flushAssistant (st : SseState) (hwf : pendingWF st) :
    StepOk st (flushAssistant st).1 (flushAssistant st).2 := by
  rcases hA : st.assistantItem with _ | item
  · have he : flushAssistant st = ([], st) := by simp [flushAssistant, hA]
    rw [he]
    exact stepOk_nil st hwf
  · cases item with
    | message id role content =>
        refine ⟨?_, ?_, ?_, ?_⟩ <;>
          simp [flushAssistant, hA, completedNat, pendNat, pendingWF, pendingTexts,
            countCompleted, countAdded, countMsgDone, msgDoneContents, deltaTexts,
            isCompletedItem, isAddedItem, isMsgDoneItem, List.filter]
    | functionCall id name args callId ts => simp [pendingWF, hA] at hwf
    | functionCallOutput callId output => simp [pendingWF, hA] at hwf
    | localShellCall => simp [pendingWF, hA] at hwf
    | customToolCall => simp [pendingWF, hA] at hwf
    | customToolCallOutput => simp [pendingWF, hA] at hwf
    | reasoning => simp [pendingWF, hA] at hwf
    | webSearchCall => simp [pendingWF, hA] at hwf
    | ghostSnapshot => simp [pendingWF, hA] at hwf
    | compactionSummary => simp [pendingWF, hA] at hwf
    | other => simp [pendingWF, hA] at hwf

theorem noError_flushAssistant (st : SseState) :
    noError (flushAssistant st).1 = true := by
  rcases hA : st.assistantItem with _ | item <;>
    simp [flushAssistant, hA, noError, isErrItem]

theorem stepOk_sseFunctionCallEvents (st : SseState) (fc : GeminiFunctionCall)
    (hwf : pendingWF st) :
    StepOk st (sseFunctionCallEvents st fc).1 (sseFunctionCallEvents st fc).2 := by
  have hflush := stepOk_flushAssistant st hwf
  rcases hF : flushAssistant st with ⟨fevs, st1⟩
  rw [hF] at hflush
  have hrest : StepOk st1
      [ChanItem.ok (.outputItemDone (ResponseItem.functionCall none fc.name
        (fc.args.getD emptyObjStr) ("gemini_call_" ++ toString (st1.functionCallCounter + 1))
        fc.thoughtSignature))]
      { st1 with functionCallCounter := st1.functionCallCounter + 1 } := by
    refine ⟨?_, ?_, ?_, ?_⟩
    · simp [completedNat, countCompleted, isCompletedItem, List.filter]
    · simp [countAdded, countMsgDone, pendNat, isAddedItem, isMsgDoneItem, List.filter]
    · simp [msgDoneContents, deltaTexts, pendingTexts]
    · exact hflush.wf
  have := hflush.comp hrest
  simpa [sseFunctionCallEvents, hF] using this

theorem noError_sseFunctionCallEvents (st : SseState) (fc : GeminiFunctionCall) :
    noError (sseFunctionCallEvents st fc).1 = true := by
  rcases hF : flushAssistant st with ⟨fevs, st1⟩
  have h1 : noError fevs = true := by
    have := noError_flushAssistant st
    rw [hF] at this
    exact this
  simp only [sseFunctionCallEvents, hF]
  rw [noError_append, h1]
  rfl

theorem stepFacts_ssePart (st : SseState) (p : GeminiPart) (hwf : pendingWF st) :
    StepOk st (ssePart st p).1 (ssePart st p).2 ∧ noError (ssePart st p).1 = true := by
  rcases hT : p.text with _ | t
  · rcases hF : p.functionCall with _ | fc
    · have heq : ssePart st p = ([], st) := by simp [ssePart, hT, hF]
      rw [heq]
      exact ⟨stepOk_nil st hwf, rfl⟩
    · rcases hFc : sseFunctionCallEvents st fc with ⟨e2, st2⟩
      have heq : ssePart st p = (e2, st2) := by simp [ssePart, hT, hF, hFc]
      rw [heq]
      have hs := stepOk_sseFunctionCallEvents st fc hwf
      have hn := noError_sseFunctionCallEvents st fc
      rw [hFc] at hs hn
      exact ⟨hs, hn⟩
  · by_cases ht : t = ""
    · subst ht
      rcases hF : p.functionCall with _ | fc
      · have heq : ssePart st p = ([], st) := by simp [ssePart, hT, hF]
        rw [heq]
        exact ⟨stepOk_nil st hwf, rfl⟩
      · rcases hFc : sseFunctionCallEvents st fc with ⟨e2, st2⟩
        have heq : ssePart st p = (e2, st2) := by simp [ssePart, hT, hF, hFc]
        rw [heq]
        have hs := stepOk_sseFunctionCallEvents st fc hwf
        have hn := noError_sseFunctionCallEvents st fc
        rw [hFc] at hs hn
        exact ⟨hs, hn⟩
    · rcases hApp : appendAssistantText st t with ⟨e1, st1⟩
      have hs1 : StepOk st e1 st1 := by
        have := stepOk_appendAssistantText st t hwf
        rw [hApp] at this
        exact this
      have hn1 : noError e1 = true := by
        have := noError_appendAssistantText st t
        rw [hApp] at this
        exact this
      rcases hF : p.functionCall with _ | fc
      · have heq : ssePart st p = (e1, st1) := by simp [ssePart, hT, ht, hApp, hF]
        rw [heq]
        exact ⟨hs1, hn1⟩
      · rcases hFc : sseFunctionCallEvents st1 fc with ⟨e2, st2⟩
        have heq : ssePart st p = (e1 ++ e2, st2) := by
          simp [ssePart, hT, ht, hApp, hF, hFc]
        rw [heq]
        have hs2 : StepOk st1 e2 st2 := by
          have := stepOk_sseFunctionCallEvents st1 fc hs1.wf
          rw [hFc] at this
          exact this
        have hn2 : noError e2 = true := by
          have := noError_sseFunctionCallEvents st1 fc
          rw [hFc] at this
          exact this
        exact ⟨hs1.comp hs2, by simp [noError_append, hn1, hn2]⟩

theorem stepFacts_sseParts :
    ∀ (ps : List GeminiPart) (st : SseState), pendingWF st →
    StepOk st (sseParts st ps).1 (sseParts st ps).2 ∧
      noError (sseParts st ps).1 = true := by
  intro ps
  induction ps with
  | nil => intro st hwf; exact ⟨stepOk_nil st hwf, rfl⟩
  | cons p rest ih =>
      intro st hwf
      rcases h1 : ssePart st p with ⟨e1, st1⟩
      obtain ⟨hs1, hn1⟩ := stepFacts_ssePart st p hwf
      rw [h1] at hs1 hn1
      rcases h2 : sseParts st1 rest with ⟨e2, st2⟩
      obtain ⟨hs2, hn2⟩ := ih st1 hs1.wf
      rw [h2] at hs2 hn2
      constructor
      · simpa [sseParts, h1, h2] using hs1.comp hs2
      · simp [sseParts, h1, h2, noError_append, hn1, hn2]

theorem stepOk_single_error (st : SseState) (e : ApiError) (hwf : pendingWF st) :
    StepOk st [ChanItem.error e] st := by
  refine ⟨?_, ?_, ?_, hwf⟩ <;>
    simp [countCompleted, countAdded, countMsgDone, msgDoneContents, deltaTexts,
      isCompletedItem, isAddedItem, isMsgDoneItem, List.filter]

theorem stepOk_completed_event (st : SseState) (u : Option TokenUsage)
    (hwf : pendingWF st) (hcs : st.completedSent = false) :
    StepOk st [ChanItem.ok (.completed "" u)]
      { st with completedSent := true, lastUsage := none } := by
  refine ⟨?_, ?_, ?_, ?_⟩
  · simp [completedNat, countCompleted, isCompletedItem, List.filter, hcs]
  · simp [countAdded, countMsgDone, pendNat, isAddedItem, isMsgDoneItem, List.filter]
  · simp [msgDoneContents, deltaTexts, pendingTexts]
  · exact hwf

theorem stepFacts_sseFinish (st : SseState) (r : String) (hwf : pendingWF st) :
    StepOk st (sseFinish st r).1 (sseFinish st r).2.1 ∧
    ((sseFinish st r).2.2 = false → noError (sseFinish st r).1 = true) ∧
    ((sseFinish st r).2.2 = true →
      ∃ pre e, (sseFinish st r).1 = pre ++ [ChanItem.error e] ∧ noError pre = true) := by
  by_cases hr1 : r = "STOP"
  · rcases hFl : flushAssistant st with ⟨fevs, st1⟩
    have hs1 : StepOk st fevs st1 := by
      have := stepOk_flushAssistant st hwf
      rw [hFl] at this
      exact this
    have hn1 : noError fevs = true := by
      have := noError_flushAssistant st
      rw [hFl] at this
      exact this
    by_cases hcs : st1.completedSent
    · have heq : sseFinish st r = (fevs, st1, false) := by
        simp [sseFinish, hr1, hFl, hcs]
      rw [heq]
      exact ⟨hs1, fun _ => hn1, fun h => by simp at h⟩
    · have heq : sseFinish st r
          = (fevs ++ [ChanItem.ok (.completed "" (st1.lastUsage.map mkTokenUsage))],
             { st1 with completedSent := true, lastUsage := none }, false) := by
        simp [sseFinish, hr1, hFl, hcs]
      rw [heq]
      have hs2 := stepOk_completed_event st1 (st1.lastUsage.map mkTokenUsage) hs1.wf
        (by simpa using hcs)
      refine ⟨hs1.comp hs2, fun _ => ?_, fun h => by simp at h⟩
      rw [noError_append, hn1]
      rfl
  · by_cases hr2 : r = "MAX_TOKENS"
    · have heq : sseFinish st r = ([ChanItem.error .contextWindowExceeded], st, true) := by
        simp [sseFinish, hr1, hr2]
      rw [heq]
      exact ⟨stepOk_single_error st _ hwf, fun h => by simp at h,
        fun _ => ⟨[], .contextWindowExceeded, rfl, rfl⟩⟩
    · by_cases hr3 : r = "SAFETY"
      · have heq : sseFinish st r
            = ([ChanItem.error (.stream "Response blocked by safety filters")], st, true) := by
          simp [sseFinish, hr1, hr2, hr3]
        rw [heq]
        exact ⟨stepOk_single_error st _ hwf, fun h => by simp at h,
          fun _ => ⟨[], .stream "Response blocked by safety filters", rfl, rfl⟩⟩
      · have heq : sseFinish st r = ([], st, false) := by
          simp [sseFinish, hr1, hr2, hr3]
        rw [heq]
        exact ⟨stepOk_nil st hwf, fun _ => rfl, fun h => by simp at h⟩

theorem stepFacts_sseCandidate (st : SseState) (c : GeminiCandidate)
    (hwf : pendingWF st) :
    StepOk st (sseCandidate st c).1 (sseCandidate st c).2.1 ∧
    ((sseCandidate st c).2.2 = false → noError (sseCandidate st c).1 = true) ∧
    ((sseCandidate st c).2.2 = true →
      ∃ pre e, (sseCandidate st c).1 = pre ++ [ChanItem.error e] ∧
        noError pre = true) := by
  have hcontent : ∃ evs1 st1,
      (match c.content with
        | some content =>
            match content.parts with
            | some parts => sseParts st parts
            | none => ([], st)
        | none => ([], st)) = (evs1, st1) ∧
      StepOk st evs1 st1 ∧ noError evs1 = true := by
    rcases hC : c.content with _ | content
    · exact ⟨[], st, by simp only [hC], stepOk_nil st hwf, rfl⟩
    · rcases hP : content.parts with _ | parts
      · exact ⟨[], st, by simp only [hC, hP], stepOk_nil st hwf, rfl⟩
      · rcases hps : sseParts st parts with ⟨e1, s1⟩
        obtain ⟨hs, hn⟩ := stepFacts_sseParts parts st hwf
        rw [hps] at hs hn
        exact ⟨e1, s1, by simp only [hC, hP, hps], hs, hn⟩
  obtain ⟨evs1, st1, hceq, hs1, hn1⟩ := hcontent
  rcases hR : c.finishReason with _ | r
  · have heq : sseCandidate st c = (evs1, st1, false) := by
      simp only [sseCandidate, hceq, hR]
    rw [heq]
    exact ⟨hs1, fun _ => hn1, fun h => by simp at h⟩
  · rcases hFin : sseFinish st1 r with ⟨e2, st2, hb⟩
    obtain ⟨hsF, hnF, hhF⟩ := stepFacts_sseFinish st1 r hs1.wf
    rw [hFin] at hsF hnF hhF
    have heq : sseCandidate st c = (evs1 ++ e2, st2, hb) := by
      simp only [sseCandidate, hceq, hR, hFin]
    rw [heq]
    refine ⟨hs1.comp hsF, fun h => ?_, fun h => ?_⟩
    · rw [noError_append, hn1, hnF h]
      rfl
    · obtain ⟨pre, e, hpe, hnp⟩ := hhF h
      have hpe' : e2 = pre ++ [ChanItem.error e] := hpe
      refine ⟨evs1 ++ pre, e, ?_, ?_⟩
      · show evs1 ++ e2 = evs1 ++ pre ++ [ChanItem.error e]
        rw [hpe', List.append_assoc]
      · rw [noError_append, hn1, hnp]
        rfl

theorem stepFacts_sseCandidates :
    ∀ (l : List GeminiCandidate) (st : SseState), pendingWF st →
    StepOk st (sseCandidates st l).1 (sseCandidates st l).2.1 ∧
    ((sseCandidates st l).2.2 = false → noError (sseCandidates st l).1 = true) ∧
    ((sseCandidates st l).2.2 = true →
      ∃ pre e, (sseCandidates st l).1 = pre ++ [ChanItem.error e] ∧
        noError pre = true) := by
  intro l
  induction l with
  | nil =>
      intro st hwf
      exact ⟨stepOk_nil st hwf, fun _ => rfl, fun h => by simp [sseCandidates] at h⟩
  | cons c cs ih =>
      intro st hwf
      rcases hc : sseCandidate st c with ⟨e1, st1, h1⟩
      obtain ⟨hs1, hn1, hh1⟩ := stepFacts_sseCandidate st c hwf
      rw [hc] at hs1 hn1 hh1
      cases h1 with
      | true =>
          have heq : sseCandidates st (c :: cs) = (e1, st1, true) := by
            simp only [sseCandidates, hc, if_true]
          rw [heq]
          exact ⟨hs1, fun h => by simp at h, fun _ => hh1 rfl⟩
      | false =>
          rcases hcs : sseCandidates st1 cs with ⟨e2, st2, h2⟩
          obtain ⟨hs2, hn2, hh2⟩ := ih st1 hs1.wf
          rw [hcs] at hs2 hn2 hh2
          have heq : sseCandidates st (c :: cs) = (e1 ++ e2, st2, h2) := by
            simp only [sseCandidates, hc, Bool.false_eq_true, if_false, hcs]
          rw [heq]
          refine ⟨hs1.comp hs2, fun h => ?_, fun h => ?_⟩
          · rw [noError_append, hn1 rfl, hn2 h]
            rfl
          · obtain ⟨pre, e, hpe, hnp⟩ := hh2 h
            have hpe' : e2 = pre ++ [ChanItem.error e] := hpe
            refine ⟨e1 ++ pre, e, ?_, ?_⟩
            · show e1 ++ e2 = e1 ++ pre ++ [ChanItem.error e]
              rw [hpe', List.append_assoc]
            · rw [noError_append, hn1 rfl, hnp]
              rfl

theorem stepOk_usageUpdate (st : SseState) (u : Option GeminiUsageMetadata)
    (hwf : pendingWF st) :
    StepOk st []
      (match u with
        | some u => { st with lastUsage := some u }
        | none => st) := by
  cases u with
  | none => exact stepOk_nil st hwf
  | some u =>
      refine ⟨?_, ?_, ?_, ?_⟩
      · simp [completedNat, countCompleted, isCompletedItem, List.filter]
      · simp [countAdded, countMsgDone, pendNat, isAddedItem, isMsgDoneItem, List.filter]
      · simp [msgDoneContents, deltaTexts, pendingTexts]
      · exact hwf

theorem stepFacts_sseChunkData (st : SseState) (d : ChunkData) (hwf : pendingWF st) :
    StepOk st (sseChunkData st d).1 (sseChunkData st d).2.1 ∧
    ((sseChunkData st d).2.2 = false → noError (sseChunkData st d).1 = true) ∧
    ((sseChunkData st d).2.2 = true →
      ∃ pre e, (sseChunkData st d).1 = pre ++ [ChanItem.error e] ∧
        noError pre = true) := by
  cases d with
  | emptyData =>
      exact ⟨stepOk_nil st hwf, fun _ => rfl, fun h => by simp [sseChunkData] at h⟩
  | malformed =>
      exact ⟨stepOk_nil st hwf, fun _ => rfl, fun h => by simp [sseChunkData] at h⟩
  | parsed r =>
      have hs0 := stepOk_usageUpdate st r.usageMetadata hwf
      rcases hU : r.usageMetadata with _ | u
      · rw [hU] at hs0
        rcases hC : r.candidates with _ | cs
        · have heq : sseChunkData st (.parsed r) = ([], st, false) := by
            simp only [sseChunkData, hU, hC]
          rw [heq]
          exact ⟨stepOk_nil st hwf, fun _ => rfl, fun h => by simp at h⟩
        · rcases hcs : sseCandidates st cs with ⟨e2, st2, h2⟩
          obtain ⟨hs2, hn2, hh2⟩ := stepFacts_sseCandidates cs st hwf
          rw [hcs] at hs2 hn2 hh2
          have heq : sseChunkData st (.parsed r) = (e2, st2, h2) := by
            simp only [sseChunkData, hU, hC, hcs]
          rw [heq]
          exact ⟨hs2, hn2, hh2⟩
      · rw [hU] at hs0
        rcases hC : r.candidates with _ | cs
        · have heq : sseChunkData st (.parsed r)
              = ([], { st with lastUsage := some u }, false) := by
            simp only [sseChunkData, hU, hC]
          rw [heq]
          exact ⟨hs0, fun _ => rfl, fun h => by simp at h⟩
        · rcases hcs : sseCandidates { st with lastUsage := some u } cs with ⟨e2, st2, h2⟩
          obtain ⟨hs2, hn2, hh2⟩ := stepFacts_sseCandidates cs { st with lastUsage := some u } hs0.wf
          rw [hcs] at hs2 hn2 hh2
          have heq : sseChunkData st (.parsed r) = (e2, st2, h2) := by
            simp only [sseChunkData, hU, hC, hcs]
          rw [heq]
          refine ⟨hs0.comp hs2, hn2, hh2⟩

theorem sseEndOfInput_facts (st : SseState) (hwf : pendingWF st) :
    countCompleted (sseEndOfInput st) = 1 - completedNat st ∧
    countAdded (sseEndOfInput st) = 0 ∧
    countMsgDone (sseEndOfInput st) = pendNat st ∧
    deltaTexts (sseEndOfInput st) = [] ∧
    ((msgDoneContents (sseEndOfInput st)).map contentTexts).flatten = pendingTexts st ∧
    noError (sseEndOfInput st) = true ∧
    (st.completedSent = false → lastIsCompleted (sseEndOfInput st) = true) ∧
    (st.completedSent = true → st.assistantItem = none → sseEndOfInput st = []) := by
  rcases hA : st.assistantItem with _ | item
  · cases hcs : st.completedSent
    · refine ⟨?_, ?_, ?_, ?_, ?_, ?_, ?_, ?_⟩ <;>
        simp [sseEndOfInput, flushAssistant, hA, hcs, countCompleted, countAdded,
          countMsgDone, msgDoneContents, deltaTexts, pendingTexts, pendNat,
          completedNat, noError, isErrItem, isCompletedItem, isAddedItem,
          isMsgDoneItem, lastIsCompleted, List.filter]
    · refine ⟨?_, ?_, ?_, ?_, ?_, ?_, ?_, ?_⟩ <;>
        simp [sseEndOfInput, flushAssistant, hA, hcs, countCompleted, countAdded,
          countMsgDone, msgDoneContents, deltaTexts, pendingTexts, pendNat,
          completedNat, noError, isErrItem, isCompletedItem, isAddedItem,
          isMsgDoneItem, lastIsCompleted, List.filter]
  · cases item with
    | message id role content =>
        cases hcs : st.completedSent
        · refine ⟨?_, ?_, ?_, ?_, ?_, ?_, ?_, ?_⟩ <;>
            simp [sseEndOfInput, flushAssistant, hA, hcs, countCompleted, countAdded,
              countMsgDone, msgDoneContents, deltaTexts, pendingTexts, pendNat,
              completedNat, noError, isErrItem, isCompletedItem, isAddedItem,
              isMsgDoneItem, lastIsCompleted, List.filter]
        · refine ⟨?_, ?_, ?_, ?_, ?_, ?_, ?_, ?_⟩ <;>
            simp [sseEndOfInput, flushAssistant, hA, hcs, countCompleted, countAdded,
              countMsgDone, msgDoneContents, deltaTexts, pendingTexts, pendNat,
              completedNat, noError, isErrItem, isCompletedItem, isAddedItem,
              isMsgDoneItem, lastIsCompleted, List.filter]
    | functionCall id name args callId ts => simp [pendingWF, hA] at hwf
    | functionCallOutput callId output => simp [pendingWF, hA] at hwf
    | localShellCall => simp [pendingWF, hA] at hwf
    | customToolCall => simp [pendingWF, hA] at hwf
    | customToolCallOutput => simp [pendingWF, hA] at hwf
    | reasoning => simp [pendingWF, hA] at hwf
    | webSearchCall => simp [pendingWF, hA] at hwf
    | ghostSnapshot => simp [pendingWF, hA] at hwf
    | compactionSummary => simp [pendingWF, hA] at hwf
    | other => simp [pendingWF, hA] at hwf

theorem completedNat_le_one (st : SseState) : completedNat st ≤ 1 := by
  unfold completedNat
  split <;> omega

theorem sseRun_facts :
    ∀ (cs : List ChunkEvent) (st : SseState), pendingWF st →
    (∀ out stF, sseRun st cs = (out, stF, false) →
      completedNat st + countCompleted out = 1 ∧
      countAdded out + pendNat st = countMsgDone out ∧
      ((msgDoneContents out).map contentTexts).flatten
        = pendingTexts st ++ deltaTexts out ∧
      noError out = true) ∧
    (∀ out stF, sseRun st cs = (out, stF, true) →
      StepOk st out stF ∧
        ∃ pre e, out = pre ++ [ChanItem.error e] ∧ noError pre = true) := by
  intro cs
  induction cs with
  | nil =>
      intro st hwf
      obtain ⟨f1, f2, f3, f4, f5, f6, _f7, _f8⟩ := sseEndOfInput_facts st hwf
      constructor
      · intro out stF hrun
        have hout : out = sseEndOfInput st := (congrArg (fun x => x.1) hrun).symm
        subst hout
        have hle := completedNat_le_one st
        refine ⟨by omega, by omega, ?_, f6⟩
        rw [f5, f4]
        simp
      · intro out stF hrun
        have : False := by
          have := congrArg (fun x => x.2.2) hrun
          simp [sseRun] at this
        exact absurd this (by simp)
  | cons ch rest ih =>
      intro st hwf
      cases ch with
      | chunkErr m =>
          constructor
          · intro out stF hrun
            have : False := by
              have := congrArg (fun x => x.2.2) hrun
              simp [sseRun] at this
            exact absurd this (by simp)
          · intro out stF hrun
            have hout : out = [ChanItem.error (.stream m)] :=
              (congrArg (fun x => x.1) hrun).symm
            have hstF : stF = st :=
              (congrArg (fun x => x.2.1) hrun).symm
            rw [hout, hstF]
            exact ⟨stepOk_single_error st _ hwf, [], .stream m, rfl, rfl⟩
      | idleTimeout =>
          constructor
          · intro out stF hrun
            have : False := by
              have := congrArg (fun x => x.2.2) hrun
              simp [sseRun] at this
            exact absurd this (by simp)
          · intro out stF hrun
            have hout : out = [ChanItem.error (.stream "idle timeout waiting for SSE")] :=
              (congrArg (fun x => x.1) hrun).symm
            have hstF : stF = st :=
              (congrArg (fun x => x.2.1) hrun).symm
            rw [hout, hstF]
            exact ⟨stepOk_single_error st _ hwf, [],
              .stream "idle timeout waiting for SSE", rfl, rfl⟩
      | chunk d =>
          obtain ⟨e1, st1, h1, hd⟩ : ∃ a b c, sseChunkData st d = (a, b, c) :=
            ⟨_, _, _, rfl⟩
          obtain ⟨hs1, hn1, hh1⟩ := stepFacts_sseChunkData st d hwf
          rw [hd] at hs1 hn1 hh1
          dsimp only at hs1 hn1 hh1
          cases h1 with
          | true =>
              have heq : sseRun st (ChunkEvent.chunk d :: rest) = (e1, st1, true) := by
                simp only [sseRun, hd, if_true]
              constructor
              · intro out stF hrun
                rw [heq] at hrun
                have : False := by
                  have := congrArg (fun x => x.2.2) hrun
                  simp at this
                exact absurd this (by simp)
              · intro out stF hrun
                rw [heq] at hrun
                have hout : out = e1 := (congrArg (fun x => x.1) hrun).symm
                have hstF : stF = st1 := (congrArg (fun x => x.2.1) hrun).symm
                rw [hout, hstF]
                exact ⟨hs1, hh1 rfl⟩
          | false =>
              obtain ⟨e2, st2, h2, hr⟩ : ∃ a b c, sseRun st1 rest = (a, b, c) :=
                ⟨_, _, _, rfl⟩
              obtain ⟨ihok, ihhalt⟩ := ih st1 hs1.wf
              have heq : sseRun st (ChunkEvent.chunk d :: rest) = (e1 ++ e2, st2, h2) := by
                simp only [sseRun, hd, Bool.false_eq_true, if_false, hr]
              constructor
              · intro out stF hrun
                rw [heq] at hrun
                have hout : out = e1 ++ e2 := (congrArg (fun x => x.1) hrun).symm
                have hb : h2 = false := congrArg (fun x => x.2.2) hrun
                rw [hout]
                obtain ⟨g1, g2, g3, g4⟩ := ihok e2 st2 (by rw [hr, hb])
                have a1 := hs1.completed
                have a2 := hs1.items
                refine ⟨?_, ?_, ?_, ?_⟩
                · rw [countCompleted_append]
                  omega
                · rw [countAdded_append, countMsgDone_append]
                  omega
                · rw [msgDoneContents_append, deltaTexts_append, List.map_append,
                    List.flatten_append, g3, ← List.append_assoc, hs1.texts,
                    List.append_assoc]
                · rw [noError_append, hn1 rfl, g4]
                  rfl
              · intro out stF hrun
                rw [heq] at hrun
                have hout : out = e1 ++ e2 := (congrArg (fun x => x.1) hrun).symm
                have hstF : stF = st2 := (congrArg (fun x => x.2.1) hrun).symm
                have hb : h2 = true := congrArg (fun x => x.2.2) hrun
                rw [hout, hstF]
                obtain ⟨hsh, pre, e, hpe, hnp⟩ := ihhalt e2 st2 (by rw [hr, hb])
                refine ⟨hs1.comp hsh, e1 ++ pre, e, ?_, ?_⟩
                · rw [hpe, List.append_assoc]
                · rw [noError_append, hn1 rfl, hnp]
                  rfl

/-! ## C9: fatal finish reasons leave the pending message unclosed -/

/-- C9: when the streaming parser halts on a fatal finish reason
(`MAX_TOKENS` → `ContextWindowExceeded`, `SAFETY` → safety stream error) while
an assistant message is pending, the producer sends the error as the very last
item and returns: the opened logical item never receives its
`OutputItemDone` (one more `OutputItemAdded` than message-`OutputItemDone`). -/
theorem c9_pending_message_unclosed (cs : List ChunkEvent) (out : List ChanItem)
    (stF : SseState)
    (hrun : sseRun initSseState cs = (out, stF, true))
    (hpend : stF.assistantItem.isSome = true)
    (_hlast : out.getLast? = some (ChanItem.error ApiError.contextWindowExceeded) ∨
      out.getLast? = some (ChanItem.error
        (ApiError.stream "Response blocked by safety filters"))) :
    (∃ pre e, out = pre ++ [ChanItem.error e] ∧ noError pre = true) ∧
    countAdded out = countMsgDone out + 1 := by
  obtain ⟨hstep, hends⟩ :=
    (sseRun_facts cs initSseState trivial).2 out stF hrun
  refine ⟨hends, ?_⟩
  have hitems := hstep.items
  have hp0 : pendNat initSseState = 0 := rfl
  have hpF : pendNat stF = 1 := by simp [pendNat, hpend]
  omega

def c9Chunks : List ChunkEvent :=
  [ChunkEvent.chunk (ChunkData.parsed
    { candidates := some
        [{ content := some
             { role := some "model"
               parts := some [{ text := some "partial", functionCall := none }] }
           finishReason := some "MAX_TOKENS" }]
      usageMetadata := none })]

/-- Witness for C9: a chunk carrying text `"partial"` and `MAX_TOKENS` yields
`[OutputItemAdded, OutputTextDelta, Err(ContextWindowExceeded)]` with the
opened message unclosed. -/
theorem c9_pending_message_unclosed_witness :
    (∃ pre e, (sseRun initSseState c9Chunks).1 = pre ++ [ChanItem.error e] ∧
      noError pre = true) ∧
    countAdded (sseRun initSseState c9Chunks).1
      = countMsgDone (sseRun initSseState c9Chunks).1 + 1 :=
  c9_pending_message_unclosed c9Chunks (sseRun initSseState c9Chunks).1
    (sseRun initSseState c9Chunks).2.1 rfl rfl (Or.inl rfl)

/-! ## C4: delta concatenation equals the closed message's full text -/

theorem stringJoin_eq_strConcat (l : List String) : String.join l = strConcat l := by
  have gen : ∀ (l : List String) (s : String), l.foldl (· ++ ·) s = s ++ strConcat l := by
    intro l
    induction l with
    | nil => intro s; simp [strConcat]
    | cons a rest ih =>
        intro s
        rw [List.foldl_cons, ih, strConcat, String.append_assoc]
  rw [String.join, gen]
  simp [String.empty_append]

/-- The concatenated full text of all message-`OutputItemDone` events. -/
def doneText (evs : List ChanItem) : String :=
  strConcat ((msgDoneContents evs).map contentFullText)

/-- The concatenated payloads of all `OutputTextDelta` events. -/
def deltaText (evs : List ChanItem) : String := strConcat (deltaTexts evs)

theorem doneText_append (a b : List ChanItem) :
    doneText (a ++ b) = doneText a ++ doneText b := by
  rw [doneText, msgDoneContents_append, List.map_append, strConcat_append]
  rfl

theorem deltaText_append (a b : List ChanItem) :
    deltaText (a ++ b) = deltaText a ++ deltaText b := by
  rw [deltaText, deltaTexts_append, strConcat_append]
  rfl

theorem batchPart_balance (counter : Nat) (textParts : List String) (p : GeminiPart) :
    (batchPart counter textParts p).2.2
      = textParts ++ deltaTexts (batchPart counter textParts p).1 ∧
    msgDoneContents (batchPart counter textParts p).1 = [] := by
  rcases hT : p.text with _ | t
  · rcases hF : p.functionCall with _ | fc <;>
      simp [batchPart, hT, hF, deltaTexts, msgDoneContents]
  · by_cases ht : t = ""
    · subst ht
      rcases hF : p.functionCall with _ | fc <;>
        simp [batchPart, hT, hF, deltaTexts, msgDoneContents]
    · rcases hF : p.functionCall with _ | fc <;>
        simp [batchPart, hT, hF, ht, deltaTexts, msgDoneContents]

theorem batchParts_balance :
    ∀ (ps : List GeminiPart) (counter : Nat) (textParts : List String),
    (batchParts counter textParts ps).2.2
      = textParts ++ deltaTexts (batchParts counter textParts ps).1 ∧
    msgDoneContents (batchParts counter textParts ps).1 = [] := by
  intro ps
  induction ps with
  | nil => intro counter textParts; simp [batchParts, deltaTexts, msgDoneContents]
  | cons p rest ih =>
      intro counter textParts
      obtain ⟨e1, c1, t1, h1⟩ :
          ∃ a b c, batchPart counter textParts p = (a, b, c) := ⟨_, _, _, rfl⟩
      obtain ⟨hb1, hm1⟩ := batchPart_balance counter textParts p
      rw [h1] at hb1 hm1
      dsimp only at hb1 hm1
      obtain ⟨e2, c2, t2, h2⟩ : ∃ a b c, batchParts c1 t1 rest = (a, b, c) :=
        ⟨_, _, _, rfl⟩
      obtain ⟨hb2, hm2⟩ := ih c1 t1
      rw [h2] at hb2 hm2
      dsimp only at hb2 hm2
      have heq : batchParts counter textParts (p :: rest) = (e1 ++ e2, c2, t2) := by
        simp only [batchParts, h1, h2]
      rw [heq]
      dsimp only
      constructor
      · rw [hb2, hb1, deltaTexts_append, List.append_assoc]
      · rw [msgDoneContents_append, hm1, hm2]
        rfl

theorem batchCandidateContent_balance (counter : Nat) (c : GeminiCandidate) :
    doneText (batchCandidateContent counter c).1
      = deltaText (batchCandidateContent counter c).1 := by
  rcases hC : c.content with _ | content
  · simp [batchCandidateContent, hC, doneText, deltaText, msgDoneContents,
      deltaTexts, strConcat]
  · rcases hP : content.parts with _ | parts
    · simp [batchCandidateContent, hC, hP, doneText, deltaText, msgDoneContents,
        deltaTexts, strConcat]
    · obtain ⟨evs, c1, tps, hps⟩ :
          ∃ a b c2, batchParts counter [] parts = (a, b, c2) := ⟨_, _, _, rfl⟩
      obtain ⟨hb, hm⟩ := batchParts_balance parts counter []
      rw [hps] at hb hm
      dsimp only at hb hm
      rw [List.nil_append] at hb
      by_cases htp : tps.isEmpty
      · have heq : batchCandidateContent counter c = (evs, c1) := by
          simp only [batchCandidateContent, hC, hP, hps, htp, if_true]
        rw [heq]
        dsimp only
        have htps : tps = [] := by
          cases tps with
          | nil => rfl
          | cons a b => simp [List.isEmpty] at htp
        rw [doneText, hm, deltaText, ← hb, htps]
        rfl
      · have heq : batchCandidateContent counter c
            = (evs ++ [ChanItem.ok (.outputItemDone (ResponseItem.message none
                "assistant" [ContentItem.outputText (String.join tps)]))], c1) := by
          simp only [batchCandidateContent, hC, hP, hps, htp, if_false,
            Bool.false_eq_true]
        rw [heq]
        dsimp only
        rw [doneText_append, deltaText_append]
        have h1 : doneText evs = "" := by rw [doneText, hm]; rfl
        have h2 : deltaText [ChanItem.ok (.outputItemDone (ResponseItem.message none
            "assistant" [ContentItem.outputText (String.join tps)]))] = "" := rfl
        rw [h1, h2]
        have h3 : doneText [ChanItem.ok (.outputItemDone (ResponseItem.message none
            "assistant" [ContentItem.outputText (String.join tps)]))]
            = String.join tps ++ "" := by
          simp [doneText, msgDoneContents, contentFullText, contentTexts,
            contentText, strConcat]
        rw [h3, stringJoin_eq_strConcat, String.empty_append, String.append_empty,
          String.append_empty, hb]
        rfl

theorem batchFinish_no_msg (c : GeminiCandidate) :
    msgDoneContents (batchFinish c).1 = [] ∧ deltaTexts (batchFinish c).1 = [] := by
  rcases hR : c.finishReason with _ | r
  · simp [batchFinish, hR, msgDoneContents, deltaTexts]
  · by_cases h1 : r = "MAX_TOKENS"
    · simp [batchFinish, hR, h1, msgDoneContents, deltaTexts]
    · by_cases h2 : r = "SAFETY" <;>
        simp [batchFinish, hR, h1, h2, msgDoneContents, deltaTexts]

theorem batchCandidates_balance :
    ∀ (l : List GeminiCandidate) (counter : Nat),
    doneText (batchCandidates counter l).1 = deltaText (batchCandidates counter l).1 := by
  intro l
  induction l with
  | nil => intro counter; rfl
  | cons c cs ih =>
      intro counter
      obtain ⟨e1, c1, h1⟩ : ∃ a b, batchCandidateContent counter c = (a, b) :=
        ⟨_, _, rfl⟩
      have hb1 := batchCandidateContent_balance counter c
      rw [h1] at hb1
      dsimp only at hb1
      obtain ⟨e2, hf, h2⟩ : ∃ a b, batchFinish c = (a, b) := ⟨_, _, rfl⟩
      obtain ⟨hm2, hd2⟩ := batchFinish_no_msg c
      rw [h2] at hm2 hd2
      dsimp only at hm2 hd2
      have he2d : doneText e2 = "" := by rw [doneText, hm2]; rfl
      have he2Δ : deltaText e2 = "" := by rw [deltaText, hd2]; rfl
      cases hf with
      | true =>
          have heq : batchCandidates counter (c :: cs) = (e1 ++ e2, true) := by
            simp only [batchCandidates, h1, h2, if_true]
          rw [heq]
          dsimp only
          rw [doneText_append, deltaText_append, hb1, he2d, he2Δ]
      | false =>
          obtain ⟨e3, h3b, h3⟩ : ∃ a b, batchCandidates c1 cs = (a, b) := ⟨_, _, rfl⟩
          have hb3 := ih c1
          rw [h3] at hb3
          dsimp only at hb3
          have heq : batchCandidates counter (c :: cs) = (e1 ++ e2 ++ e3, h3b) := by
            simp only [batchCandidates, h1, h2, Bool.false_eq_true, if_false, h3]
          rw [heq]
          dsimp only
          rw [doneText_append, doneText_append, deltaText_append, deltaText_append,
            hb1, he2d, he2Δ, hb3]

theorem emitGeminiEvents_balance (r : GeminiResponse) :
    doneText (emitGeminiEvents r) = deltaText (emitGeminiEvents r) := by
  rcases hC : r.candidates with _ | cs
  · simp [emitGeminiEvents, hC, doneText, deltaText, msgDoneContents, deltaTexts,
      strConcat]
  · obtain ⟨evs, hb, h1⟩ : ∃ a b, batchCandidates 0 cs = (a, b) := ⟨_, _, rfl⟩
    have hbal := batchCandidates_balance cs 0
    rw [h1] at hbal
    dsimp only at hbal
    have hcomp : doneText [ChanItem.ok (.completed ""
        (r.usageMetadata.map mkTokenUsage))] = "" := rfl
    have hcompΔ : deltaText [ChanItem.ok (.completed ""
        (r.usageMetadata.map mkTokenUsage))] = "" := rfl
    cases hb with
    | true =>
        have heq : emitGeminiEvents r = evs := by
          simp only [emitGeminiEvents, hC, h1, if_true]
        rw [heq]
        exact hbal
    | false =>
        have heq : emitGeminiEvents r
            = evs ++ [ChanItem.ok (.completed "" (r.usageMetadata.map mkTokenUsage))] := by
          simp only [emitGeminiEvents, hC, h1, Bool.false_eq_true, if_false]
        rw [heq, doneText_append, deltaText_append, hbal, hcomp, hcompΔ]

/-- C4: when one logical assistant message is produced and closed, the
concatenation of all `OutputTextDelta` payloads equals the full text carried
by that message's `OutputItemDone` — in the streaming parser (which appends
each delta as a content part of the pending message) and in the batch emitter
(which joins the collected text parts). -/
theorem c4_delta_concat_equals_message_text (cs : List ChunkEvent)
    (c : List ContentItem) (r : GeminiResponse) (c2 : List ContentItem) :
    (noError (processGeminiSse cs) = true →
      msgDoneContents (processGeminiSse cs) = [c] →
      strConcat (deltaTexts (processGeminiSse cs)) = contentFullText c) ∧
    (msgDoneContents (emitGeminiEvents r) = [c2] →
      strConcat (deltaTexts (emitGeminiEvents r)) = contentFullText c2) := by
  constructor
  · intro hne hmsg
    obtain ⟨out, stF, hb, hrun⟩ : ∃ a b c3, sseRun initSseState cs = (a, b, c3) :=
      ⟨_, _, _, rfl⟩
    have hout : processGeminiSse cs = out := by rw [processGeminiSse, hrun]
    rw [hout] at hne hmsg ⊢
    cases hb with
    | true =>
        obtain ⟨_, pre, e, hpe, _⟩ :=
          (sseRun_facts cs initSseState trivial).2 out stF hrun
        rw [hpe, noError_append] at hne
        simp [noError, isErrItem] at hne
    | false =>
        obtain ⟨_, _, g3, _⟩ :=
          (sseRun_facts cs initSseState trivial).1 out stF hrun
        rw [hmsg] at g3
        have hct : contentTexts c = deltaTexts out := by simpa using g3
        rw [contentFullText, ← hct]
  · intro hmsg
    have hbal := emitGeminiEvents_balance r
    rw [doneText, hmsg, deltaText] at hbal
    have h1 : strConcat ([c2].map contentFullText) = contentFullText c2 := by
      simp [strConcat, String.append_empty]
    rw [← hbal, h1]

def c4Chunks : List ChunkEvent :=
  [ChunkEvent.chunk (ChunkData.parsed
    { candidates := some
        [{ content := some
             { role := some "model"
               parts := some [{ text := some "Hello, ", functionCall := none }] }
           finishReason := none }]
      usageMetadata := none }),
   ChunkEvent.chunk (ChunkData.parsed
    { candidates := some
        [{ content := some
             { role := some "model"
               parts := some [{ text := some "world!", functionCall := none }] }
           finishReason := some "STOP" }]
      usageMetadata := none })]

def c4Resp : GeminiResponse :=
  { candidates := some
      [{ content := some
           { role := some "model"
             parts := some [{ text := some "Hello", functionCall := none },
                            { text := some " world", functionCall := none }] }
         finishReason := some "STOP" }]
    usageMetadata := none }

/-- Witness for C4 on a two-chunk streamed message and a two-part batch
message. -/
theorem c4_delta_concat_equals_message_text_witness :
    strConcat (deltaTexts (processGeminiSse c4Chunks))
      = contentFullText [ContentItem.outputText "Hello, ",
          ContentItem.outputText "world!"] ∧
    strConcat (deltaTexts (emitGeminiEvents c4Resp))
      = contentFullText [ContentItem.outputText "Hello world"] :=
  ⟨(c4_delta_concat_equals_message_text c4Chunks
      [ContentItem.outputText "Hello, ", ContentItem.outputText "world!"]
      c4Resp [ContentItem.outputText "Hello world"]).1 (by decide) (by decide),
   (c4_delta_concat_equals_message_text c4Chunks
      [ContentItem.outputText "Hello, ", ContentItem.outputText "world!"]
      c4Resp [ContentItem.outputText "Hello world"]).2 (by decide)⟩

/-! ## C3: MAX_TOKENS as the first terminating signal -/

/-- The terminal classification of a candidate's finish reason:
`some true` for `MAX_TOKENS`, `some false` for `SAFETY`, `none` otherwise
(`STOP` and unrecognized reasons do not end the stream with an error). -/
def candTerminal (c : GeminiCandidate) : Option Bool :=
  match c.finishReason with
  | some r =>
      if r = "MAX_TOKENS" then some true
      else if r = "SAFETY" then some false
      else none
  | none => none

/-- The first terminal signal among a candidate list, in processing order. -/
def candsMaxFirst : List GeminiCandidate → Option Bool
  | [] => none
  | c :: cs =>
      match candTerminal c with
      | some b => some b
      | none => candsMaxFirst cs

/-- The first terminal signal of a chunk stream: transport errors and idle
timeouts also end the stream before a later `MAX_TOKENS` could be reached. -/
def chunksMaxFirst : List ChunkEvent → Option Bool
  | [] => none
  | ChunkEvent.chunkErr _ :: _ => some false
  | ChunkEvent.idleTimeout :: _ => some false
  | ChunkEvent.chunk (ChunkData.parsed r) :: rest =>
      (match candsMaxFirst (r.candidates.getD []) with
       | some b => some b
       | none => chunksMaxFirst rest)
  | ChunkEvent.chunk _ :: rest => chunksMaxFirst rest

theorem candTerminal_maxTokens {c : GeminiCandidate}
    (h : candTerminal c = some true) : c.finishReason = some "MAX_TOKENS" := by
  rcases hR : c.finishReason with _ | r
  · simp [candTerminal, hR] at h
  · by_cases h1 : r = "MAX_TOKENS"
    · rw [h1]
    · by_cases h2 : r = "SAFETY" <;> simp [candTerminal, hR, h1, h2] at h

theorem candTerminal_none {c : GeminiCandidate} (h : candTerminal c = none) :
    ∀ r, c.finishReason = some r → r ≠ "MAX_TOKENS" ∧ r ≠ "SAFETY" := by
  intro r hR
  rw [candTerminal, hR] at h
  by_cases h1 : r = "MAX_TOKENS"
  · simp [h1] at h
  · by_cases h2 : r = "SAFETY"
    · simp [h1, h2] at h
    · exact ⟨h1, h2⟩

theorem sseFinish_no_halt (st : SseState) (r : String)
    (h1 : r ≠ "MAX_TOKENS") (h2 : r ≠ "SAFETY") :
    (sseFinish st r).2.2 = false := by
  by_cases hr : r = "STOP"
  · rcases hF : flushAssistant st with ⟨fevs, st1⟩
    by_cases hcs : st1.completedSent <;> simp [sseFinish, hr, hF, hcs]
  · simp [sseFinish, hr, h1, h2]

theorem sseCandidate_no_halt (st : SseState) (c : GeminiCandidate)
    (h : candTerminal c = none) : (sseCandidate st c).2.2 = false := by
  obtain ⟨evs1, st1, hceq⟩ : ∃ a b,
      (match c.content with
        | some content =>
            match content.parts with
            | some parts => sseParts st parts
            | none => ([], st)
        | none => ([], st)) = (a, b) := ⟨_, _, rfl⟩
  rcases hR : c.finishReason with _ | r
  · simp only [sseCandidate, hceq, hR]
  · obtain ⟨h1, h2⟩ := candTerminal_none h r hR
    obtain ⟨e2, st2, hb, hFin⟩ : ∃ a b c2, sseFinish st1 r = (a, b, c2) :=
      ⟨_, _, _, rfl⟩
    have hnh := sseFinish_no_halt st1 r h1 h2
    rw [hFin] at hnh
    dsimp only at hnh
    subst hnh
    simp only [sseCandidate, hceq, hR, hFin]

theorem sseCandidate_maxTokens (st : SseState) (c : GeminiCandidate)
    (hwf : pendingWF st) (h : candTerminal c = some true) :
    ∃ pre, (sseCandidate st c).1 = pre ++ [ChanItem.error .contextWindowExceeded] ∧
      noError pre = true ∧ (sseCandidate st c).2.2 = true := by
  have hR := candTerminal_maxTokens h
  have hcontent : ∃ evs1 st1,
      (match c.content with
        | some content =>
            match content.parts with
            | some parts => sseParts st parts
            | none => ([], st)
        | none => ([], st)) = (evs1, st1) ∧ noError evs1 = true := by
    rcases hC : c.content with _ | content
    · exact ⟨[], st, by simp only [hC], rfl⟩
    · rcases hP : content.parts with _ | parts
      · exact ⟨[], st, by simp only [hC, hP], rfl⟩
      · rcases hps : sseParts st parts with ⟨e1, s1⟩
        obtain ⟨_, hn⟩ := stepFacts_sseParts parts st hwf
        rw [hps] at hn
        exact ⟨e1, s1, by simp only [hC, hP, hps], hn⟩
  obtain ⟨evs1, st1, hceq, hn1⟩ := hcontent
  have hFin : sseFinish st1 "MAX_TOKENS"
      = ([ChanItem.error .contextWindowExceeded], st1, true) := rfl
  have heq : sseCandidate st c
      = (evs1 ++ [ChanItem.error .contextWindowExceeded], st1, true) := by
    simp only [sseCandidate, hceq, hR, hFin]
  rw [heq]
  exact ⟨evs1, rfl, hn1, rfl⟩

theorem sseCandidates_no_terminal :
    ∀ (l : List GeminiCandidate) (st : SseState),
    candsMaxFirst l = none → (sseCandidates st l).2.2 = false := by
  intro l
  induction l with
  | nil => intro st _; rfl
  | cons c cs ih =>
      intro st h
      have hct : candTerminal c = none := by
        rcases hc : candTerminal c with _ | b
        · rfl
        · simp [candsMaxFirst, hc] at h
      have hrest : candsMaxFirst cs = none := by
        simpa [candsMaxFirst, hct] using h
      obtain ⟨e1, st1, hb, hc1⟩ : ∃ a b c2, sseCandidate st c = (a, b, c2) :=
        ⟨_, _, _, rfl⟩
      have hnh := sseCandidate_no_halt st c hct
      rw [hc1] at hnh
      dsimp only at hnh
      subst hnh
      obtain ⟨e2, st2, hb2, hc2⟩ : ∃ a b c2, sseCandidates st1 cs = (a, b, c2) :=
        ⟨_, _, _, rfl⟩
      have hnh2 := ih st1 hrest
      rw [hc2] at hnh2
      dsimp only at hnh2
      subst hnh2
      simp only [sseCandidates, hc1, Bool.false_eq_true, if_false, hc2]

theorem sseCandidates_maxFirst :
    ∀ (l : List GeminiCandidate) (st : SseState), pendingWF st →
    candsMaxFirst l = some true →
    ∃ pre, (sseCandidates st l).1 = pre ++ [ChanItem.error .contextWindowExceeded] ∧
      noError pre = true ∧ (sseCandidates st l).2.2 = true := by
  intro l
  induction l with
  | nil => intro st _ h; simp [candsMaxFirst] at h
  | cons c cs ih =>
      intro st hwf h
      rcases hct : candTerminal c with _ | b
      · have hrest : candsMaxFirst cs = some true := by
          simpa [candsMaxFirst, hct] using h
        obtain ⟨e1, st1, hb, hc1⟩ : ∃ a b c2, sseCandidate st c = (a, b, c2) :=
          ⟨_, _, _, rfl⟩
        have hnh := sseCandidate_no_halt st c hct
        rw [hc1] at hnh
        dsimp only at hnh
        subst hnh
        obtain ⟨hs1, hn1, _⟩ := stepFacts_sseCandidate st c hwf
        rw [hc1] at hs1 hn1
        dsimp only at hs1 hn1
        obtain ⟨pre, hpre, hnp, hhalt⟩ := ih st1 hs1.wf hrest
        obtain ⟨e2, st2, hb2, hc2⟩ : ∃ a b c2, sseCandidates st1 cs = (a, b, c2) :=
          ⟨_, _, _, rfl⟩
        rw [hc2] at hpre hhalt
        dsimp only at hpre hhalt
        subst hhalt
        have heq : sseCandidates st (c :: cs) = (e1 ++ e2, st2, true) := by
          simp only [sseCandidates, hc1, Bool.false_eq_true, if_false, hc2]
        rw [heq]
        refine ⟨e1 ++ pre, ?_, ?_, rfl⟩
        · dsimp only
          rw [hpre, List.append_assoc]
        · rw [noError_append, hn1 rfl, hnp]
          rfl
      · have hbt : b = true := by
          have := h
          rw [candsMaxFirst, hct] at this
          simpa using this
        subst hbt
        obtain ⟨pre, hpre, hnp, hhalt⟩ := sseCandidate_maxTokens st c hwf hct
        obtain ⟨e1, st1, hb, hc1⟩ : ∃ a b c2, sseCandidate st c = (a, b, c2) :=
          ⟨_, _, _, rfl⟩
        rw [hc1] at hpre hhalt
        dsimp only at hpre hhalt
        subst hhalt
        have heq : sseCandidates st (c :: cs) = (e1, st1, true) := by
          simp only [sseCandidates, hc1, if_true]
        rw [heq]
        exact ⟨pre, hpre, hnp, rfl⟩

theorem sseRun_maxFirst :
    ∀ (cs : List ChunkEvent) (st : SseState), pendingWF st →
    chunksMaxFirst cs = some true →
    ∃ pre, (sseRun st cs).1 = pre ++ [ChanItem.error .contextWindowExceeded] ∧
      noError pre = true := by
  intro cs
  induction cs with
  | nil => intro st _ h; simp [chunksMaxFirst] at h
  | cons ch rest ih =>
      intro st hwf h
      cases ch with
      | chunkErr m => simp [chunksMaxFirst] at h
      | idleTimeout => simp [chunksMaxFirst] at h
      | chunk d =>
          cases d with
          | emptyData =>
              have hrest : chunksMaxFirst rest = some true := by
                simpa [chunksMaxFirst] using h
              obtain ⟨pre, hpre, hnp⟩ := ih st hwf hrest
              obtain ⟨e2, st2, hb2, hr2⟩ : ∃ a b c2, sseRun st rest = (a, b, c2) :=
                ⟨_, _, _, rfl⟩
              rw [hr2] at hpre
              dsimp only at hpre
              have heq : (sseRun st (ChunkEvent.chunk ChunkData.emptyData :: rest)).1
                  = e2 := by
                simp [sseRun, sseChunkData, hr2]
              rw [heq, hpre]
              exact ⟨pre, rfl, hnp⟩
          | malformed =>
              have hrest : chunksMaxFirst rest = some true := by
                simpa [chunksMaxFirst] using h
              obtain ⟨pre, hpre, hnp⟩ := ih st hwf hrest
              obtain ⟨e2, st2, hb2, hr2⟩ : ∃ a b c2, sseRun st rest = (a, b, c2) :=
                ⟨_, _, _, rfl⟩
              rw [hr2] at hpre
              dsimp only at hpre
              have heq : (sseRun st (ChunkEvent.chunk ChunkData.malformed :: rest)).1
                  = e2 := by
                simp [sseRun, sseChunkData, hr2]
              rw [heq, hpre]
              exact ⟨pre, rfl, hnp⟩
          | parsed r =>
              obtain ⟨e1, st1, h1, hd⟩ : ∃ a b c2, sseChunkData st (.parsed r) = (a, b, c2) :=
                ⟨_, _, _, rfl⟩
              obtain ⟨hs1, hn1, _⟩ := stepFacts_sseChunkData st (.parsed r) hwf
              rw [hd] at hs1 hn1
              dsimp only at hs1 hn1
              rcases hcm : candsMaxFirst (r.candidates.getD []) with _ | b
              · -- this chunk has no terminal signal: it cannot halt
                have hrest : chunksMaxFirst rest = some true := by
                  have := h
                  rw [chunksMaxFirst, hcm] at this
                  exact this
                have hnh : h1 = false := by
                  rcases hC : r.candidates with _ | cl
                  · have : sseChunkData st (.parsed r)
                        = ((sseChunkData st (.parsed r)).1,
                           (sseChunkData st (.parsed r)).2.1, false) := by
                      rcases hU : r.usageMetadata with _ | u <;>
                        simp [sseChunkData, hU, hC]
                    rw [hd] at this
                    exact (congrArg (fun x => x.2.2) this)
                  · have hcl : candsMaxFirst cl = none := by
                      simpa [hC] using hcm
                    rcases hU : r.usageMetadata with _ | u
                    · have := sseCandidates_no_terminal cl st hcl
                      have heqc : sseChunkData st (.parsed r) = sseCandidates st cl := by
                        simp [sseChunkData, hU, hC]
                      rw [heqc] at hd
                      rw [hd] at this
                      exact this
                    · have := sseCandidates_no_terminal cl { st with lastUsage := some u } hcl
                      have heqc : sseChunkData st (.parsed r)
                          = sseCandidates { st with lastUsage := some u } cl := by
                        simp [sseChunkData, hU, hC]
                      rw [heqc] at hd
                      rw [hd] at this
                      exact this
                subst hnh
                obtain ⟨pre, hpre, hnp⟩ := ih st1 hs1.wf hrest
                obtain ⟨e2, st2, hb2, hr2⟩ : ∃ a b c2, sseRun st1 rest = (a, b, c2) :=
                  ⟨_, _, _, rfl⟩
                rw [hr2] at hpre
                dsimp only at hpre
                have heq : (sseRun st (ChunkEvent.chunk (ChunkData.parsed r) :: rest)).1
                    = e1 ++ e2 := by
                  simp [sseRun, hd, hr2]
                rw [heq, hpre]
                refine ⟨e1 ++ pre, by rw [List.append_assoc], ?_⟩
                rw [noError_append, hn1 rfl, hnp]
                rfl
              · have hbt : b = true := by
                  have := h
                  rw [chunksMaxFirst, hcm] at this
                  simpa using this
                subst hbt
                rcases hC : r.candidates with _ | cl
                · simp [hC, candsMaxFirst] at hcm
                · have hcl : candsMaxFirst cl = some true := by simpa [hC] using hcm
                  rcases hU : r.usageMetadata with _ | u
                  · obtain ⟨pre, hpre, hnp, hhalt⟩ :=
                      sseCandidates_maxFirst cl st hwf hcl
                    have heqc : sseChunkData st (.parsed r) = sseCandidates st cl := by
                      simp [sseChunkData, hU, hC]
                    rw [heqc] at hd
                    rw [hd] at hpre hhalt
                    dsimp only at hpre hhalt
                    subst hhalt
                    have heq : (sseRun st (ChunkEvent.chunk (ChunkData.parsed r) :: rest)).1
                        = e1 := by
                      simp [sseRun, heqc, hd]
                    rw [heq, hpre]
                    exact ⟨pre, rfl, hnp⟩
                  · obtain ⟨pre, hpre, hnp, hhalt⟩ :=
                      sseCandidates_maxFirst cl { st with lastUsage := some u } hwf hcl
                    have heqc : sseChunkData st (.parsed r)
                        = sseCandidates { st with lastUsage := some u } cl := by
                      simp [sseChunkData, hU, hC]
                    rw [heqc] at hd
                    rw [hd] at hpre hhalt
                    dsimp only at hpre hhalt
                    subst hhalt
                    have heq : (sseRun st (ChunkEvent.chunk (ChunkData.parsed r) :: rest)).1
                        = e1 := by
                      simp [sseRun, heqc, hd]
                    rw [heq, hpre]
                    exact ⟨pre, rfl, hnp⟩

theorem noError_batchPart (counter : Nat) (textParts : List String) (p : GeminiPart) :
    noError (batchPart counter textParts p).1 = true := by
  rcases hT : p.text with _ | t
  · rcases hF : p.functionCall with _ | fc <;>
      simp [batchPart, hT, hF, noError, isErrItem]
  · by_cases ht : t = ""
    · subst ht
      rcases hF : p.functionCall with _ | fc <;>
        simp [batchPart, hT, hF, noError, isErrItem]
    · rcases hF : p.functionCall with _ | fc <;>
        simp [batchPart, hT, hF, ht, noError, isErrItem]

theorem noError_batchParts :
    ∀ (ps : List GeminiPart) (counter : Nat) (textParts : List String),
    noError (batchParts counter textParts ps).1 = true := by
  intro ps
  induction ps with
  | nil => intro counter textParts; rfl
  | cons p rest ih =>
      intro counter textParts
      obtain ⟨e1, c1, t1, h1⟩ :
          ∃ a b c, batchPart counter textParts p = (a, b, c) := ⟨_, _, _, rfl⟩
      have hn1 := noError_batchPart counter textParts p
      rw [h1] at hn1
      dsimp only at hn1
      obtain ⟨e2, c2, t2, h2⟩ : ∃ a b c, batchParts c1 t1 rest = (a, b, c) :=
        ⟨_, _, _, rfl⟩
      have hn2 := ih c1 t1
      rw [h2] at hn2
      dsimp only at hn2
      have heq : batchParts counter textParts (p :: rest) = (e1 ++ e2, c2, t2) := by
        simp only [batchParts, h1, h2]
      rw [heq]
      dsimp only
      rw [noError_append, hn1, hn2]
      rfl

theorem noError_batchCandidateContent (counter : Nat) (c : GeminiCandidate) :
    noError (batchCandidateContent counter c).1 = true := by
  rcases hC : c.content with _ | content
  · simp [batchCandidateContent, hC, noError]
  · rcases hP : content.parts with _ | parts
    · simp [batchCandidateContent, hC, hP, noError]
    · obtain ⟨evs, c1, tps, hps⟩ :
          ∃ a b c2, batchParts counter [] parts = (a, b, c2) := ⟨_, _, _, rfl⟩
      have hn := noError_batchParts parts counter []
      rw [hps] at hn
      dsimp only at hn
      by_cases htp : tps.isEmpty
      · have heq : batchCandidateContent counter c = (evs, c1) := by
          simp only [batchCandidateContent, hC, hP, hps, htp, if_true]
        rw [heq]
        exact hn
      · have heq : batchCandidateContent counter c
            = (evs ++ [ChanItem.ok (.outputItemDone (ResponseItem.message none
                "assistant" [ContentItem.outputText (String.join tps)]))], c1) := by
          simp only [batchCandidateContent, hC, hP, hps, htp, if_false,
            Bool.false_eq_true]
        rw [heq]
        dsimp only
        rw [noError_append, hn]
        rfl

theorem batchFinish_maxTokens (c : GeminiCandidate) (h : candTerminal c = some true) :
    batchFinish c = ([ChanItem.error .contextWindowExceeded], true) := by
  have hR := candTerminal_maxTokens h
  simp [batchFinish, hR]

theorem batchFinish_no_halt (c : GeminiCandidate) (h : candTerminal c = none) :
    batchFinish c = ([], false) := by
  rcases hR : c.finishReason with _ | r
  · simp [batchFinish, hR]
  · obtain ⟨h1, h2⟩ := candTerminal_none h r hR
    simp [batchFinish, hR, h1, h2]

theorem batchCandidates_maxFirst :
    ∀ (l : List GeminiCandidate) (counter : Nat),
    candsMaxFirst l = some true →
    ∃ pre, (batchCandidates counter l).1
        = pre ++ [ChanItem.error .contextWindowExceeded] ∧
      noError pre = true ∧ (batchCandidates counter l).2 = true := by
  intro l
  induction l with
  | nil => intro counter h; simp [candsMaxFirst] at h
  | cons c cs ih =>
      intro counter h
      obtain ⟨e1, c1, h1⟩ : ∃ a b, batchCandidateContent counter c = (a, b) :=
        ⟨_, _, rfl⟩
      have hn1 := noError_batchCandidateContent counter c
      rw [h1] at hn1
      dsimp only at hn1
      rcases hct : candTerminal c with _ | b
      · have hrest : candsMaxFirst cs = some true := by
          simpa [candsMaxFirst, hct] using h
        have hfin := batchFinish_no_halt c hct
        obtain ⟨pre, hpre, hnp, hhalt⟩ := ih c1 hrest
        obtain ⟨e3, h3b, h3⟩ : ∃ a b, batchCandidates c1 cs = (a, b) := ⟨_, _, rfl⟩
        rw [h3] at hpre hhalt
        dsimp only at hpre hhalt
        subst hhalt
        have heq : batchCandidates counter (c :: cs) = (e1 ++ [] ++ e3, true) := by
          simp only [batchCandidates, h1, hfin, Bool.false_eq_true, if_false, h3]
        rw [heq]
        refine ⟨e1 ++ pre, ?_, ?_, rfl⟩
        · dsimp only
          rw [List.append_nil, hpre, List.append_assoc]
        · rw [noError_append, hn1, hnp]
          rfl
      · have hbt : b = true := by
          have := h
          rw [candsMaxFirst, hct] at this
          simpa using this
        subst hbt
        have hfin := batchFinish_maxTokens c hct
        have heq : batchCandidates counter (c :: cs)
            = (e1 ++ [ChanItem.error .contextWindowExceeded], true) := by
          simp only [batchCandidates, h1, hfin, if_true]
        rw [heq]
        exact ⟨e1, rfl, hn1, rfl⟩

theorem emitGeminiEvents_maxFirst (r : GeminiResponse)
    (h : candsMaxFirst (r.candidates.getD []) = some true) :
    ∃ pre, emitGeminiEvents r = pre ++ [ChanItem.error .contextWindowExceeded] ∧
      noError pre = true := by
  rcases hC : r.candidates with _ | cl
  · simp [hC, candsMaxFirst] at h
  · have hcl : candsMaxFirst cl = some true := by simpa [hC] using h
    obtain ⟨pre, hpre, hnp, hhalt⟩ := batchCandidates_maxFirst cl 0 hcl
    obtain ⟨evs, hb, h1⟩ : ∃ a b, batchCandidates 0 cl = (a, b) := ⟨_, _, rfl⟩
    rw [h1] at hpre hhalt
    dsimp only at hpre hhalt
    subst hhalt
    have heq : emitGeminiEvents r = evs := by
      simp only [emitGeminiEvents, hC, h1, if_true]
    rw [heq, hpre]
    exact ⟨pre, rfl, hnp⟩

/-- C3 (amended): when `MAX_TOKENS` is the stream's first terminating signal —
no `SAFETY` candidate, transport error, or idle timeout precedes it — the
parser emits exactly one `ContextWindowExceeded` error and ends the stream
immediately (the error is the last item, so no `Completed` can follow it); the
batch emitter behaves identically on its candidate list. -/
theorem c3_max_tokens_terminates (cs : List ChunkEvent) (r : GeminiResponse) :
    (chunksMaxFirst cs = some true →
      countCWE (processGeminiSse cs) = 1 ∧
      (processGeminiSse cs).getLast?
        = some (ChanItem.error .contextWindowExceeded)) ∧
    (candsMaxFirst (r.candidates.getD []) = some true →
      countCWE (emitGeminiEvents r) = 1 ∧
      (emitGeminiEvents r).getLast?
        = some (ChanItem.error .contextWindowExceeded)) := by
  constructor
  · intro h
    obtain ⟨pre, hpre, hnp⟩ := sseRun_maxFirst cs initSseState trivial h
    have hout : processGeminiSse cs = pre ++ [ChanItem.error .contextWindowExceeded] :=
      hpre
    rw [hout]
    constructor
    · rw [countCWE_append, countCWE_eq_zero_of_noError pre hnp]
      rfl
    · exact List.getLast?_concat _
  · intro h
    obtain ⟨pre, hpre, hnp⟩ := emitGeminiEvents_maxFirst r h
    rw [hpre]
    constructor
    · rw [countCWE_append, countCWE_eq_zero_of_noError pre hnp]
      rfl
    · exact List.getLast?_concat _

def c3SafetyFirstResp : GeminiResponse :=
  { candidates := some
      [{ content := none, finishReason := some "SAFETY" },
       { content := none, finishReason := some "MAX_TOKENS" }]
    usageMetadata := none }

/-- C3 counterexample: this stream CONTAINS a candidate whose finish reason is
`MAX_TOKENS`, yet neither the streaming parser nor the batch emitter ever
emits a `ContextWindowExceeded` error — the earlier `SAFETY` candidate ends
the stream first with a generic stream error. -/
theorem c3_counterexample :
    (∃ c ∈ c3SafetyFirstResp.candidates.getD [],
      c.finishReason = some "MAX_TOKENS") ∧
    countCWE (processGeminiSse
      [ChunkEvent.chunk (ChunkData.parsed c3SafetyFirstResp)]) = 0 ∧
    countCWE (emitGeminiEvents c3SafetyFirstResp) = 0 := by
  exact ⟨⟨{ content := none, finishReason := some "MAX_TOKENS" },
    List.Mem.tail _ (List.Mem.head _), rfl⟩, by decide, by decide⟩

def c3MaxFirstChunks : List ChunkEvent :=
  [ChunkEvent.chunk (ChunkData.parsed
    { candidates := some [{ content := none, finishReason := some "MAX_TOKENS" }]
      usageMetadata := none })]

def c3MaxFirstResp : GeminiResponse :=
  { candidates := some [{ content := none, finishReason := some "MAX_TOKENS" }]
    usageMetadata := none }

/-- Witness for C3 on a stream and a response whose only terminal signal is
`MAX_TOKENS`. -/
theorem c3_max_tokens_terminates_witness :
    (countCWE (processGeminiSse c3MaxFirstChunks) = 1 ∧
      (processGeminiSse c3MaxFirstChunks).getLast?
        = some (ChanItem.error .contextWindowExceeded)) ∧
    (countCWE (emitGeminiEvents c3MaxFirstResp) = 1 ∧
      (emitGeminiEvents c3MaxFirstResp).getLast?
        = some (ChanItem.error .contextWindowExceeded)) :=
  ⟨(c3_max_tokens_terminates c3MaxFirstChunks c3MaxFirstResp).1 (by decide),
   (c3_max_tokens_terminates c3MaxFirstChunks c3MaxFirstResp).2 (by decide)⟩

/-! ## C2: exactly one Completed per successful stream -/

/-- Does a part produce events (non-empty text or a function call)? -/
def partActive (p : GeminiPart) : Bool :=
  (match p.text with
   | some t => t ≠ ""
   | none => false) || p.functionCall.isSome

/-- The parts of a candidate (empty when content or parts are absent). -/
def candParts (c : GeminiCandidate) : List GeminiPart :=
  match c.content with
  | some content => content.parts.getD []
  | none => []

/-- A candidate with no event-producing parts. -/
def candInactive (c : GeminiCandidate) : Bool :=
  (candParts c).all (fun p => !(partActive p))

/-- Walk a candidate list tracking whether a `STOP` was already seen: every
candidate strictly after the first `STOP` must be inactive. Returns (clean,
stop-seen-after). -/
def candsCleanAux : Bool → List GeminiCandidate → Bool × Bool
  | seen, [] => (true, seen)
  | seen, c :: cs =>
      let okHere := !seen || candInactive c
      let seen2 := seen || (c.finishReason == some "STOP")
      let rest := candsCleanAux seen2 cs
      (okHere && rest.1, rest.2)

/-- Walk a chunk stream: no candidate content arrives after the first `STOP`. -/
def chunksCleanAux : Bool → List ChunkEvent → Bool
  | _, [] => true
  | seen, ChunkEvent.chunk (ChunkData.parsed r) :: rest =>
      (candsCleanAux seen (r.candidates.getD [])).1 &&
        chunksCleanAux (candsCleanAux seen (r.candidates.getD [])).2 rest
  | seen, _ :: rest => chunksCleanAux seen rest

/-- No candidate content parts arrive after the first `STOP` finish reason. -/
def cleanAfterStop (cs : List ChunkEvent) : Bool := chunksCleanAux false cs

theorem candsCleanAux_true_snd :
    ∀ (l : List GeminiCandidate), (candsCleanAux true l).2 = true := by
  intro l
  induction l with
  | nil => rfl
  | cons c cs ih => simpa [candsCleanAux] using ih

theorem completedSent_appendAssistantText (st : SseState) (t : String) :
    (appendAssistantText st t).2.completedSent = st.completedSent := by
  rcases hA : st.assistantItem with _ | item
  · simp [appendAssistantText, hA]
  · cases item <;> simp [appendAssistantText, hA]

theorem completedSent_flushAssistant (st : SseState) :
    (flushAssistant st).2.completedSent = st.completedSent := by
  rcases hA : st.assistantItem with _ | item <;> simp [flushAssistant, hA]

theorem assistantItem_flushAssistant (st : SseState) :
    (flushAssistant st).2.assistantItem = none := by
  rcases hA : st.assistantItem with _ | item <;> simp [flushAssistant, hA]

theorem completedSent_sseFunctionCallEvents (st : SseState) (fc : GeminiFunctionCall) :
    (sseFunctionCallEvents st fc).2.completedSent = st.completedSent := by
  rcases hF : flushAssistant st with ⟨fevs, st1⟩
  have h1 := completedSent_flushAssistant st
  rw [hF] at h1
  simp only [sseFunctionCallEvents, hF]
  exact h1

theorem completedSent_ssePart (st : SseState) (p : GeminiPart) :
    (ssePart st p).2.completedSent = st.completedSent := by
  rcases hT : p.text with _ | t
  · rcases hF : p.functionCall with _ | fc
    · simp [ssePart, hT, hF]
    · rcases hFc : sseFunctionCallEvents st fc with ⟨e2, st2⟩
      have h2 := completedSent_sseFunctionCallEvents st fc
      rw [hFc] at h2
      simp only [ssePart, hT, hF, hFc]
      exact h2
  · by_cases ht : t = ""
    · subst ht
      rcases hF : p.functionCall with _ | fc
      · simp [ssePart, hT, hF]
      · rcases hFc : sseFunctionCallEvents st fc with ⟨e2, st2⟩
        have h2 := completedSent_sseFunctionCallEvents st fc
        rw [hFc] at h2
        have heq : ssePart st p = (e2, st2) := by simp [ssePart, hT, hF, hFc]
        rw [heq]
        exact h2
    · rcases hApp : appendAssistantText st t with ⟨e1, st1⟩
      have h1 := completedSent_appendAssistantText st t
      rw [hApp] at h1
      rcases hF : p.functionCall with _ | fc
      · have heq : ssePart st p = (e1, st1) := by simp [ssePart, hT, ht, hApp, hF]
        rw [heq]
        exact h1
      · rcases hFc : sseFunctionCallEvents st1 fc with ⟨e2, st2⟩
        have h2 := completedSent_sseFunctionCallEvents st1 fc
        rw [hFc] at h2
        have heq : ssePart st p = (e1 ++ e2, st2) := by
          simp [ssePart, hT, ht, hApp, hF, hFc]
        rw [heq]
        dsimp only at h2 ⊢
        rw [h2, h1]

theorem completedSent_sseParts :
    ∀ (ps : List GeminiPart) (st : SseState),
    (sseParts st ps).2.completedSent = st.completedSent := by
  intro ps
  induction ps with
  | nil => intro st; rfl
  | cons p rest ih =>
      intro st
      rcases h1 : ssePart st p with ⟨e1, st1⟩
      have hp := completedSent_ssePart st p
      rw [h1] at hp
      rcases h2 : sseParts st1 rest with ⟨e2, st2⟩
      have hr := ih st1
      rw [h2] at hr
      have heq : sseParts st (p :: rest) = (e1 ++ e2, st2) := by
        simp only [sseParts, h1, h2]
      rw [heq]
      dsimp only at hp hr ⊢
      rw [hr, hp]

theorem ssePart_inactive (st : SseState) (p : GeminiPart)
    (h : partActive p = false) : ssePart st p = ([], st) := by
  have hF : p.functionCall = none := by
    rcases hF : p.functionCall with _ | fc
    · rfl
    · simp [partActive, hF] at h
  rcases hT : p.text with _ | t
  · simp [ssePart, hT, hF]
  · have ht : t = "" := by
      by_cases ht : t = ""
      · exact ht
      · simp [partActive, hT, ht] at h
    subst ht
    simp [ssePart, hT, hF]

theorem sseParts_inactive :
    ∀ (ps : List GeminiPart) (st : SseState),
    ps.all (fun p => !(partActive p)) = true → sseParts st ps = ([], st) := by
  intro ps
  induction ps with
  | nil => intro st _; rfl
  | cons p rest ih =>
      intro st h
      simp only [List.all_cons, Bool.and_eq_true, Bool.not_eq_true'] at h
      obtain ⟨hp, hrest⟩ := h
      have h1 := ssePart_inactive st p hp
      have h2 := ih st (by simpa using hrest)
      simp [sseParts, h1, h2]

theorem lastIsCompleted_append (a b : List ChanItem)
    (h : lastIsCompleted b = true) : lastIsCompleted (a ++ b) = true := by
  cases b with
  | nil => simp [lastIsCompleted] at h
  | cons x xs =>
      rw [lastIsCompleted] at h ⊢
      rw [List.getLast?_append_of_ne_nil]
      · exact h
      · simp

theorem lastIsCompleted_concat (a : List ChanItem) (rid : String)
    (u : Option TokenUsage) :
    lastIsCompleted (a ++ [ChanItem.ok (.completed rid u)]) = true := by
  rw [lastIsCompleted, List.getLast?_concat]
  rfl

theorem sseCandidate_postStop (st : SseState) (c : GeminiCandidate)
    (hflag : st.completedSent = true) (hasst : st.assistantItem = none)
    (hinact : candInactive c = true) :
    (sseCandidate st c).2.2 = true ∨ sseCandidate st c = ([], st, false) := by
  have hparts : (match c.content with
      | some content =>
          match content.parts with
          | some parts => sseParts st parts
          | none => ([], st)
      | none => ([], st)) = ([], st) := by
    rcases hC : c.content with _ | content
    · simp only [hC]
    · rcases hP : content.parts with _ | parts
      · simp only [hC, hP]
      · have : parts.all (fun p => !(partActive p)) = true := by
          have := hinact
          simp only [candInactive, candParts, hC, hP, Option.getD_some] at this
          simpa using this
        simp only [hC, hP, sseParts_inactive parts st this]
  rcases hR : c.finishReason with _ | r
  · right
    simp only [sseCandidate, hparts, hR]
  · by_cases h1 : r = "MAX_TOKENS"
    · left
      subst h1
      simp only [sseCandidate, hparts, hR, sseFinish]
      rfl
    · by_cases h2 : r = "SAFETY"
      · left
        subst h2
        simp only [sseCandidate, hparts, hR, sseFinish]
        rfl
      · right
        by_cases hr : r = "STOP"
        · subst hr
          have hFl : flushAssistant st = ([], st) := by simp [flushAssistant, hasst]
          have hFin : sseFinish st "STOP" = ([], st, false) := by
            simp [sseFinish, hFl, hflag]
          simp only [sseCandidate, hparts, hR, hFin]
          rfl
        · have hFin : sseFinish st r = ([], st, false) := by
            simp [sseFinish, hr, h1, h2]
          simp only [sseCandidate, hparts, hR, hFin]
          rfl

theorem sseCandidate_firstStop (st : SseState) (c : GeminiCandidate)
    (hflag : st.completedSent = false) (hstop : c.finishReason = some "STOP") :
    lastIsCompleted (sseCandidate st c).1 = true ∧
    (sseCandidate st c).2.1.completedSent = true ∧
    (sseCandidate st c).2.1.assistantItem = none ∧
    (sseCandidate st c).2.2 = false := by
  obtain ⟨evs1, st1, hceq⟩ : ∃ a b,
      (match c.content with
        | some content =>
            match content.parts with
            | some parts => sseParts st parts
            | none => ([], st)
        | none => ([], st)) = (a, b) := ⟨_, _, rfl⟩
  have hflag1 : st1.completedSent = false := by
    rcases hC : c.content with _ | content
    · simp only [hC] at hceq
      have : st1 = st := congrArg (fun x => x.2) hceq.symm
      rw [this]
      exact hflag
    · rcases hP : content.parts with _ | parts
      · simp only [hC, hP] at hceq
        have : st1 = st := congrArg (fun x => x.2) hceq.symm
        rw [this]
        exact hflag
      · simp only [hC, hP] at hceq
        have := completedSent_sseParts parts st
        rw [hceq] at this
        dsimp only at this
        rw [this]
        exact hflag
  rcases hFl : flushAssistant st1 with ⟨fevs, st2⟩
  have hflag2 : st2.completedSent = false := by
    have := completedSent_flushAssistant st1
    rw [hFl] at this
    dsimp only at this
    rw [this]
    exact hflag1
  have hasst2 : st2.assistantItem = none := by
    have := assistantItem_flushAssistant st1
    rw [hFl] at this
    exact this
  have hFin : sseFinish st1 "STOP"
      = (fevs ++ [ChanItem.ok (.completed "" (st2.lastUsage.map mkTokenUsage))],
         { st2 with completedSent := true, lastUsage := none }, false) := by
    simp [sseFinish, hFl, hflag2]
  have heq : sseCandidate st c
      = (evs1 ++ (fevs ++ [ChanItem.ok (.completed "" (st2.lastUsage.map mkTokenUsage))]),
         { st2 with completedSent := true, lastUsage := none }, false) := by
    simp only [sseCandidate, hceq, hstop, hFin]
  rw [heq]
  refine ⟨?_, rfl, hasst2, rfl⟩
  dsimp only
  rw [← List.append_assoc]
  exact lastIsCompleted_concat _ _ _

theorem sseCandidate_notStop_flag (st : SseState) (c : GeminiCandidate)
    (hstop : c.finishReason ≠ some "STOP")
    (hnh : (sseCandidate st c).2.2 = false) :
    (sseCandidate st c).2.1.completedSent = st.completedSent := by
  obtain ⟨evs1, st1, hceq⟩ : ∃ a b,
      (match c.content with
        | some content =>
            match content.parts with
            | some parts => sseParts st parts
            | none => ([], st)
        | none => ([], st)) = (a, b) := ⟨_, _, rfl⟩
  have hflag1 : st1.completedSent = st.completedSent := by
    rcases hC : c.content with _ | content
    · simp only [hC] at hceq
      have : st1 = st := congrArg (fun x => x.2) hceq.symm
      rw [this]
    · rcases hP : content.parts with _ | parts
      · simp only [hC, hP] at hceq
        have : st1 = st := congrArg (fun x => x.2) hceq.symm
        rw [this]
      · simp only [hC, hP] at hceq
        have := completedSent_sseParts parts st
        rw [hceq] at this
        exact this
  rcases hR : c.finishReason with _ | r
  · have heq : sseCandidate st c = (evs1, st1, false) := by
      simp only [sseCandidate, hceq, hR]
    rw [heq]
    exact hflag1
  · have hrstop : r ≠ "STOP" := by
      intro hh
      exact hstop (by rw [hR, hh])
    by_cases h1 : r = "MAX_TOKENS"
    · exfalso
      have heq : sseCandidate st c
          = (evs1 ++ [ChanItem.error .contextWindowExceeded], st1, true) := by
        subst h1
        simp only [sseCandidate, hceq, hR, sseFinish]
        rfl
      rw [heq] at hnh
      simp at hnh
    · by_cases h2 : r = "SAFETY"
      · exfalso
        have heq : sseCandidate st c
            = (evs1 ++ [ChanItem.error (.stream "Response blocked by safety filters")],
               st1, true) := by
          subst h2
          simp only [sseCandidate, hceq, hR, sseFinish]
          rfl
        rw [heq] at hnh
        simp at hnh
      · have hFin : sseFinish st1 r = ([], st1, false) := by
          simp [sseFinish, hrstop, h1, h2]
        have heq : sseCandidate st c = (evs1 ++ [], st1, false) := by
          simp only [sseCandidate, hceq, hR, hFin]
        rw [heq]
        exact hflag1

theorem sseCandidates_clean :
    ∀ (l : List GeminiCandidate) (st : SseState) (seen : Bool),
    st.completedSent = seen →
    (seen = true → st.assistantItem = none) →
    pendingWF st →
    (candsCleanAux seen l).1 = true →
    (sseCandidates st l).2.2 = true ∨
    ((sseCandidates st l).2.1.completedSent = (candsCleanAux seen l).2 ∧
     ((candsCleanAux seen l).2 = true → (sseCandidates st l).2.1.assistantItem = none) ∧
     (seen = true → (sseCandidates st l).1 = []) ∧
     (seen = false → (candsCleanAux seen l).2 = true →
        lastIsCompleted (sseCandidates st l).1 = true)) := by
  intro l
  induction l with
  | nil =>
      intro st seen hflag hasst hwf _
      right
      refine ⟨hflag, hasst, fun _ => rfl, ?_⟩
      intro h1 h2
      have h2' : seen = true := h2
      rw [h1] at h2'
      simp at h2'
  | cons c cs ih =>
      intro st seen hflag hasst hwf hclean
      have hparts : (candsCleanAux seen (c :: cs)).1
          = ((!seen || candInactive c) && (candsCleanAux (seen ||
              (c.finishReason == some "STOP")) cs).1) := rfl
      have hsnd : (candsCleanAux seen (c :: cs)).2
          = (candsCleanAux (seen || (c.finishReason == some "STOP")) cs).2 := rfl
      rw [hparts] at hclean
      simp only [Bool.and_eq_true, Bool.or_eq_true] at hclean
      obtain ⟨hok, hrest⟩ := hclean
      obtain ⟨e1, st1, hb1, hc1⟩ : ∃ a b c2, sseCandidate st c = (a, b, c2) :=
        ⟨_, _, _, rfl⟩
      obtain ⟨hs1, _, _⟩ := stepFacts_sseCandidate st c hwf
      rw [hc1] at hs1
      dsimp only at hs1
      cases hb1 with
      | true =>
          left
          simp only [sseCandidates, hc1, if_true]
      | false =>
          obtain ⟨e2, st2, hb2, hc2⟩ : ∃ a b c2, sseCandidates st1 cs = (a, b, c2) :=
            ⟨_, _, _, rfl⟩
          have heq : sseCandidates st (c :: cs) = (e1 ++ e2, st2, hb2) := by
            simp only [sseCandidates, hc1, Bool.false_eq_true, if_false, hc2]
          cases seen with
          | true =>
              have hinact : candInactive c = true := by
                rcases hok with h | h
                · simp at h
                · exact h
              have hseen2 : (true || (c.finishReason == some "STOP")) = true := by simp
              rw [hseen2] at hrest
              rcases sseCandidate_postStop st c hflag (hasst rfl) hinact with hhalt | hcand
              · rw [hc1] at hhalt
                simp at hhalt
              · rw [hc1] at hcand
                have he1 : e1 = [] := congrArg (fun x => x.1) hcand
                have hst1 : st1 = st := congrArg (fun x => x.2.1) hcand
                subst he1
                rcases ih st1 true (by rw [hst1]; exact hflag)
                    (fun _ => by rw [hst1]; exact hasst rfl)
                    (by rw [hst1]; exact hwf) hrest with hhalt2 | ⟨g1, g2, g3, _⟩
                · rw [hc2] at hhalt2
                  dsimp only at hhalt2
                  subst hhalt2
                  left
                  rw [heq]
                · rw [hc2] at g1 g2 g3
                  dsimp only at g1 g2 g3
                  right
                  rw [heq]
                  refine ⟨?_, ?_, ?_, ?_⟩
                  · rw [hsnd, hseen2]
                    exact g1
                  · intro h
                    rw [hsnd, hseen2] at h
                    exact g2 h
                  · intro _
                    dsimp only
                    rw [g3 rfl]
                    rfl
                  · intro h1
                    simp at h1
          | false =>
              by_cases hstop : c.finishReason = some "STOP"
              · have hbeq : (c.finishReason == some "STOP") = true := by
                  simp [hstop]
                have hseen2 : (false || (c.finishReason == some "STOP")) = true := by
                  simp [hbeq]
                rw [hseen2] at hrest
                obtain ⟨hlast, hflag1, hasst1, _⟩ :=
                  sseCandidate_firstStop st c hflag hstop
                rw [hc1] at hlast hflag1 hasst1
                dsimp only at hlast hflag1 hasst1
                rcases ih st1 true hflag1 (fun _ => hasst1) hs1.wf hrest with
                  hhalt2 | ⟨g1, g2, g3, _⟩
                · rw [hc2] at hhalt2
                  dsimp only at hhalt2
                  subst hhalt2
                  left
                  rw [heq]
                · rw [hc2] at g1 g2 g3
                  dsimp only at g1 g2 g3
                  right
                  rw [heq]
                  have he2 : e2 = [] := g3 rfl
                  subst he2
                  refine ⟨?_, ?_, ?_, ?_⟩
                  · rw [hsnd, hseen2]
                    exact g1
                  · intro h
                    rw [hsnd, hseen2] at h
                    exact g2 h
                  · intro h
                    simp at h
                  · intro _ _
                    dsimp only
                    rw [List.append_nil]
                    exact hlast
              · have hbeq : (c.finishReason == some "STOP") = false := by
                  simp [hstop]
                have hseen2 : (false || (c.finishReason == some "STOP")) = false := by
                  simp [hbeq]
                rw [hseen2] at hrest
                have hflag1 : st1.completedSent = false := by
                  have := sseCandidate_notStop_flag st c hstop (by rw [hc1])
                  rw [hc1] at this
                  dsimp only at this
                  rw [this]
                  exact hflag
                rcases ih st1 false hflag1 (fun h => absurd h Bool.false_ne_true)
                    hs1.wf hrest with hhalt2 | ⟨g1, g2, _, g4⟩
                · rw [hc2] at hhalt2
                  dsimp only at hhalt2
                  subst hhalt2
                  left
                  rw [heq]
                · rw [hc2] at g1 g2 g4
                  dsimp only at g1 g2 g4
                  right
                  rw [heq]
                  refine ⟨?_, ?_, ?_, ?_⟩
                  · rw [hsnd, hseen2]
                    exact g1
                  · intro h
                    rw [hsnd, hseen2] at h
                    exact g2 h
                  · intro h
                    simp at h
                  · intro _ h
                    rw [hsnd, hseen2] at h
                    dsimp only
                    exact lastIsCompleted_append e1 e2 (g4 rfl h)

theorem sseChunkData_clean (st : SseState) (r : GeminiResponse) (seen : Bool)
    (hflag : st.completedSent = seen)
    (hasst : seen = true → st.assistantItem = none)
    (hwf : pendingWF st)
    (hclean : (candsCleanAux seen (r.candidates.getD [])).1 = true) :
    (sseChunkData st (.parsed r)).2.2 = true ∨
    ((sseChunkData st (.parsed r)).2.1.completedSent
        = (candsCleanAux seen (r.candidates.getD [])).2 ∧
     ((candsCleanAux seen (r.candidates.getD [])).2 = true →
        (sseChunkData st (.parsed r)).2.1.assistantItem = none) ∧
     (seen = true → (sseChunkData st (.parsed r)).1 = []) ∧
     (seen = false → (candsCleanAux seen (r.candidates.getD [])).2 = true →
        lastIsCompleted (sseChunkData st (.parsed r)).1 = true)) := by
  rcases hU : r.usageMetadata with _ | u
  · rcases hC : r.candidates with _ | cl
    · right
      have heq : sseChunkData st (.parsed r) = ([], st, false) := by
        simp only [sseChunkData, hU, hC]
      rw [heq]
      simp only [hC]
      refine ⟨hflag, hasst, ?_, ?_⟩
      · intro _
        trivial
      · intro h1 h2
        have h2' : seen = true := h2
        rw [h1] at h2'
        simp at h2'
    · have heq : sseChunkData st (.parsed r) = sseCandidates st cl := by
        simp only [sseChunkData, hU, hC]
      rw [heq]
      have hcl : (candsCleanAux seen cl).1 = true := by simpa [hC] using hclean
      simp only [hC, Option.getD_some]
      exact sseCandidates_clean cl st seen hflag hasst hwf hcl
  · rcases hC : r.candidates with _ | cl
    · right
      have heq : sseChunkData st (.parsed r)
          = ([], { st with lastUsage := some u }, false) := by
        simp only [sseChunkData, hU, hC]
      rw [heq]
      simp only [hC]
      refine ⟨hflag, hasst, ?_, ?_⟩
      · intro _
        trivial
      · intro h1 h2
        have h2' : seen = true := h2
        rw [h1] at h2'
        simp at h2'
    · have heq : sseChunkData st (.parsed r)
          = sseCandidates { st with lastUsage := some u } cl := by
        simp only [sseChunkData, hU, hC]
      rw [heq]
      have hcl : (candsCleanAux seen cl).1 = true := by simpa [hC] using hclean
      simp only [hC, Option.getD_some]
      exact sseCandidates_clean cl { st with lastUsage := some u } seen hflag hasst hwf hcl

theorem sseRun_clean :
    ∀ (cs : List ChunkEvent) (st : SseState) (seen : Bool),
    st.completedSent = seen →
    (seen = true → st.assistantItem = none) →
    pendingWF st →
    chunksCleanAux seen cs = true →
    (sseRun st cs).2.2 = true ∨
    ((seen = true → (sseRun st cs).1 = []) ∧
     (seen = false → lastIsCompleted (sseRun st cs).1 = true)) := by
  intro cs
  induction cs with
  | nil =>
      intro st seen hflag hasst hwf _
      right
      obtain ⟨_, _, _, _, _, _, f7, f8⟩ := sseEndOfInput_facts st hwf
      constructor
      · intro h1
        exact f8 (by rw [hflag, h1]) (hasst h1)
      · intro h1
        exact f7 (by rw [hflag, h1])
  | cons ch rest ih =>
      intro st seen hflag hasst hwf hclean
      cases ch with
      | chunkErr m => left; rfl
      | idleTimeout => left; rfl
      | chunk d =>
          cases d with
          | emptyData =>
              have hclean' : chunksCleanAux seen rest = true := hclean
              obtain ⟨e2, st2, hb2, hr2⟩ : ∃ a b c2, sseRun st rest = (a, b, c2) :=
                ⟨_, _, _, rfl⟩
              have heq : sseRun st (ChunkEvent.chunk ChunkData.emptyData :: rest)
                  = ([] ++ e2, st2, hb2) := by
                simp only [sseRun, sseChunkData, hr2, Bool.false_eq_true, if_false]
              rcases ih st seen hflag hasst hwf hclean' with hhalt | ⟨g1, g2⟩
              · rw [hr2] at hhalt
                dsimp only at hhalt
                subst hhalt
                left
                rw [heq]
              · rw [hr2] at g1 g2
                dsimp only at g1 g2
                right
                rw [heq]
                refine ⟨?_, ?_⟩
                · intro h1
                  dsimp only
                  rw [g1 h1]
                  rfl
                · intro h1
                  dsimp only
                  rw [List.nil_append]
                  exact g2 h1
          | malformed =>
              have hclean' : chunksCleanAux seen rest = true := hclean
              obtain ⟨e2, st2, hb2, hr2⟩ : ∃ a b c2, sseRun st rest = (a, b, c2) :=
                ⟨_, _, _, rfl⟩
              have heq : sseRun st (ChunkEvent.chunk ChunkData.malformed :: rest)
                  = ([] ++ e2, st2, hb2) := by
                simp only [sseRun, sseChunkData, hr2, Bool.false_eq_true, if_false]
              rcases ih st seen hflag hasst hwf hclean' with hhalt | ⟨g1, g2⟩
              · rw [hr2] at hhalt
                dsimp only at hhalt
                subst hhalt
                left
                rw [heq]
              · rw [hr2] at g1 g2
                dsimp only at g1 g2
                right
                rw [heq]
                refine ⟨?_, ?_⟩
                · intro h1
                  dsimp only
                  rw [g1 h1]
                  rfl
                · intro h1
                  dsimp only
                  rw [List.nil_append]
                  exact g2 h1
          | parsed r =>
              have hsplit : ((candsCleanAux seen (r.candidates.getD [])).1 &&
                  chunksCleanAux (candsCleanAux seen (r.candidates.getD [])).2 rest)
                  = true := hclean
              simp only [Bool.and_eq_true] at hsplit
              obtain ⟨hclean1, hclean2⟩ := hsplit
              obtain ⟨e1, st1, hb1, hd⟩ :
                  ∃ a b c2, sseChunkData st (.parsed r) = (a, b, c2) := ⟨_, _, _, rfl⟩
              obtain ⟨hs1, _, _⟩ := stepFacts_sseChunkData st (.parsed r) hwf
              rw [hd] at hs1
              dsimp only at hs1
              rcases sseChunkData_clean st r seen hflag hasst hwf hclean1 with
                hhalt | ⟨k1, k2, k3, k4⟩
              · rw [hd] at hhalt
                dsimp only at hhalt
                subst hhalt
                left
                simp only [sseRun, hd, if_true]
              · rw [hd] at k1 k2 k3 k4
                dsimp only at k1 k2 k3 k4
                cases hb1 with
                | true =>
                    left
                    simp only [sseRun, hd, if_true]
                | false =>
                    obtain ⟨e2, st2, hb2, hr2⟩ :
                        ∃ a b c2, sseRun st1 rest = (a, b, c2) := ⟨_, _, _, rfl⟩
                    have heq : sseRun st (ChunkEvent.chunk (ChunkData.parsed r) :: rest)
                        = (e1 ++ e2, st2, hb2) := by
                      simp only [sseRun, hd, Bool.false_eq_true, if_false, hr2]
                    rcases ih st1 (candsCleanAux seen (r.candidates.getD [])).2
                        k1 k2 hs1.wf hclean2 with hhalt2 | ⟨g1, g2⟩
                    · rw [hr2] at hhalt2
                      dsimp only at hhalt2
                      subst hhalt2
                      left
                      rw [heq]
                    · rw [hr2] at g1 g2
                      dsimp only at g1 g2
                      right
                      rw [heq]
                      refine ⟨?_, ?_⟩
                      · intro h1
                        dsimp only
                        have hsnd2 : (candsCleanAux seen (r.candidates.getD [])).2
                            = true := by
                          rw [h1] at *
                          exact candsCleanAux_true_snd _
                        rw [k3 h1, g1 hsnd2]
                        rfl
                      · intro h1
                        dsimp only
                        rcases hsnd : (candsCleanAux seen (r.candidates.getD [])).2 with
                          _ | _
                        · rw [hsnd] at g2
                          exact lastIsCompleted_append e1 e2 (g2 rfl)
                        · rw [hsnd] at g1
                          rw [g1 rfl, List.append_nil]
                          exact k4 h1 hsnd

/-- C2 (amended): every successful stream (no fatal error sent) carries exactly
one `Completed` event; and provided no candidate content parts arrive after the
first `STOP` finish reason (`cleanAfterStop`), the `Completed` event is the last
event of the stream. Content chunks arriving after a `STOP` re-open an
assistant message and emit item events after the `Completed`. -/
theorem c2_exactly_one_completed (cs : List ChunkEvent)
    (hsucc : noError (processGeminiSse cs) = true) :
    countCompleted (processGeminiSse cs) = 1 ∧
    (cleanAfterStop cs = true → lastIsCompleted (processGeminiSse cs) = true) := by
  obtain ⟨out, stF, hb, hrun⟩ : ∃ a b c2, sseRun initSseState cs = (a, b, c2) :=
    ⟨_, _, _, rfl⟩
  have hout : processGeminiSse cs = out := by rw [processGeminiSse, hrun]
  rw [hout] at hsucc ⊢
  cases hb with
  | true =>
      obtain ⟨_, pre, e, hpe, _⟩ :=
        (sseRun_facts cs initSseState trivial).2 out stF hrun
      rw [hpe, noError_append] at hsucc
      simp [noError, isErrItem] at hsucc
  | false =>
      obtain ⟨g1, _, _, _⟩ := (sseRun_facts cs initSseState trivial).1 out stF hrun
      constructor
      · have hz : completedNat initSseState = 0 := rfl
        omega
      · intro hclean
        rcases sseRun_clean cs initSseState false rfl
            (fun h => absurd h Bool.false_ne_true) trivial hclean with hhalt | ⟨_, h4⟩
        · rw [hrun] at hhalt
          dsimp only at hhalt
          exact absurd hhalt (by simp)
        · have := h4 rfl
          rw [hrun] at this
          exact this

def c2DirtyChunks : List ChunkEvent :=
  [ChunkEvent.chunk (ChunkData.parsed
    { candidates := some [{ content := none, finishReason := some "STOP" }]
      usageMetadata := none }),
   ChunkEvent.chunk (ChunkData.parsed
    { candidates := some
        [{ content := some
             { role := some "model"
               parts := some [{ text := some "x", functionCall := none }] }
           finishReason := none }]
      usageMetadata := none })]

/-- C2 counterexample: a successful stream in which a content chunk arrives
after the `STOP` finish reason. Exactly one `Completed` is emitted, but it is
NOT the last event: an `OutputItemAdded`, an `OutputTextDelta` and an
`OutputItemDone` follow it. -/
theorem c2_counterexample :
    noError (processGeminiSse c2DirtyChunks) = true ∧
    countCompleted (processGeminiSse c2DirtyChunks) = 1 ∧
    lastIsCompleted (processGeminiSse c2DirtyChunks) = false ∧
    (processGeminiSse c2DirtyChunks).getLast?
      = some (ChanItem.ok (.outputItemDone
          (ResponseItem.message none "assistant" [ContentItem.outputText "x"]))) :=
  ⟨by decide, by decide, by decide, rfl⟩

def c2CleanChunks : List ChunkEvent :=
  [ChunkEvent.chunk (ChunkData.parsed
    { candidates := some
        [{ content := some
             { role := some "model"
               parts := some [{ text := some "hi", functionCall := none }] }
           finishReason := some "STOP" }]
      usageMetadata := some
        { promptTokenCount := some 10, candidatesTokenCount := some 5
          totalTokenCount := some 15 } })]

/-- Witness for C2 on a clean one-chunk stream. -/
theorem c2_exactly_one_completed_witness :
    countCompleted (processGeminiSse c2CleanChunks) = 1 ∧
    (cleanAfterStop c2CleanChunks = true →
      lastIsCompleted (processGeminiSse c2CleanChunks) = true) :=
  c2_exactly_one_completed c2CleanChunks (by decide)

/-! ## C1: batch replay versus true streaming -/

/-- The non-empty texts of a part list, in order (what both emitters turn into
`OutputTextDelta` events). -/
def activeTexts (ps : List GeminiPart) : List String :=
  ps.filterMap (fun p =>
    match p.text with
    | some t => if t = "" then none else some t
    | none => none)

/-- Collapse a message's content parts into one joined text part (the shape
the batch emitter produces). -/
def joinMessageContent (item : ResponseItem) : ResponseItem :=
  match item with
  | .message id role content =>
      .message id role [ContentItem.outputText (contentFullText content)]
  | x => x

/-- Project a streaming event sequence onto the batch-replay contract: drop
`OutputItemAdded` events and aggregate each closed message's content into one
joined text part. -/
def normalizeReplay (out : List ChanItem) : List ChanItem :=
  (out.filter (fun i => !(isAddedItem i))).map (fun i =>
    match i with
    | .ok (.outputItemDone item) => .ok (.outputItemDone (joinMessageContent item))
    | x => x)

/-- The batch-replay event sequence for one text-only candidate. -/
def batchReplayEvents (ts : List String) (u : Option GeminiUsageMetadata) :
    List ChanItem :=
  (if ts.isEmpty then [] else
    ts.map (fun t => ChanItem.ok (.outputTextDelta t)) ++
      [ChanItem.ok (.outputItemDone (ResponseItem.message none "assistant"
        [ContentItem.outputText (String.join ts)]))]) ++
  [ChanItem.ok (.completed "" (u.map mkTokenUsage))]

/-- The true-streaming event sequence for one text-only candidate. -/
def streamReplayEvents (ts : List String) (u : Option GeminiUsageMetadata) :
    List ChanItem :=
  (if ts.isEmpty then [] else
    ChanItem.ok (.outputItemAdded (ResponseItem.message none "assistant" [])) ::
      (ts.map (fun t => ChanItem.ok (.outputTextDelta t)) ++
        [ChanItem.ok (.outputItemDone (ResponseItem.message none "assistant"
          (ts.map ContentItem.outputText)))])) ++
  [ChanItem.ok (.completed "" (u.map mkTokenUsage))]

theorem partInactive_of_textOnly (p : GeminiPart) (hfc : p.functionCall = none)
    (ht : (match p.text with
      | some t => if t = "" then none else some t
      | none => (none : Option String)) = none) :
    partActive p = false := by
  rcases hT : p.text with _ | t
  · simp [partActive, hT, hfc]
  · rw [hT] at ht
    by_cases h : t = ""
    · simp [partActive, hT, hfc, h]
    · simp [h] at ht

theorem sseParts_textOnly_pending :
    ∀ (ps : List GeminiPart) (st : SseState) (id : Option String) (role : String)
      (content : List ContentItem),
    (∀ p ∈ ps, p.functionCall = none) →
    st.assistantItem = some (.message id role content) →
    sseParts st ps
      = ((activeTexts ps).map (fun t => ChanItem.ok (.outputTextDelta t)),
         { st with assistantItem := some (.message id role
             (content ++ (activeTexts ps).map ContentItem.outputText)) }) := by
  intro ps
  induction ps with
  | nil =>
      intro st id role content _ hA
      simp [sseParts, activeTexts, ← hA]
  | cons p rest ih =>
      intro st id role content hfc hA
      have hfcp : p.functionCall = none := hfc p (by simp)
      have hfcr : ∀ q ∈ rest, q.functionCall = none := fun q hq => hfc q (by simp [hq])
      rcases hT : p.text with _ | t
      · have hp : ssePart st p = ([], st) := by simp [ssePart, hT, hfcp]
        have hact : activeTexts (p :: rest) = activeTexts rest := by
          simp [activeTexts, hT]
        rw [hact]
        have hr := ih st id role content hfcr hA
        simp only [sseParts, hp, hr]
        simp
      · by_cases ht : t = ""
        · subst ht
          have hp : ssePart st p = ([], st) := by simp [ssePart, hT, hfcp]
          have hact : activeTexts (p :: rest) = activeTexts rest := by
            simp [activeTexts, hT]
          rw [hact]
          have hr := ih st id role content hfcr hA
          simp only [sseParts, hp, hr]
          simp
        · have happ : appendAssistantText st t
              = ([ChanItem.ok (.outputTextDelta t)],
                 { st with assistantItem := some (.message id role
                     (content ++ [ContentItem.outputText t])) }) := by
            simp [appendAssistantText, hA]
          have hp : ssePart st p
              = ([ChanItem.ok (.outputTextDelta t)],
                 { st with assistantItem := some (.message id role
                     (content ++ [ContentItem.outputText t])) }) := by
            simp [ssePart, hT, ht, happ, hfcp]
          have hact : activeTexts (p :: rest) = t :: activeTexts rest := by
            simp [activeTexts, hT, ht]
          rw [hact]
          have hr := ih { st with assistantItem := some (.message id role
              (content ++ [ContentItem.outputText t])) } id role
              (content ++ [ContentItem.outputText t]) hfcr rfl
          simp only [sseParts, hp, hr]
          simp [List.append_assoc]

theorem sseParts_textOnly_none (ps : List GeminiPart) :
    ∀ (st : SseState) (t : String) (ts : List String),
    (∀ p ∈ ps, p.functionCall = none) →
    st.assistantItem = none →
    activeTexts ps = t :: ts →
    sseParts st ps
      = (ChanItem.ok (.outputItemAdded (ResponseItem.message none "assistant" [])) ::
          ((t :: ts).map (fun s => ChanItem.ok (.outputTextDelta s))),
         { st with assistantItem := some (.message none "assistant"
             ((t :: ts).map ContentItem.outputText)) }) := by
  induction ps with
  | nil => intro st t ts _ _ hact; simp [activeTexts] at hact
  | cons p rest ih =>
      intro st t ts hfc hA hact
      have hfcp : p.functionCall = none := hfc p (by simp)
      have hfcr : ∀ q ∈ rest, q.functionCall = none := fun q hq => hfc q (by simp [hq])
      rcases hT : p.text with _ | t0
      · have hp : ssePart st p = ([], st) := by simp [ssePart, hT, hfcp]
        have hact' : activeTexts rest = t :: ts := by
          have : activeTexts (p :: rest) = activeTexts rest := by
            simp [activeTexts, hT]
          rw [← this, hact]
        have hr := ih st t ts hfcr hA hact'
        simp only [sseParts, hp, hr]
        simp
      · by_cases ht : t0 = ""
        · subst ht
          have hp : ssePart st p = ([], st) := by simp [ssePart, hT, hfcp]
          have hact' : activeTexts rest = t :: ts := by
            have : activeTexts (p :: rest) = activeTexts rest := by
              simp [activeTexts, hT]
            rw [← this, hact]
          have hr := ih st t ts hfcr hA hact'
          simp only [sseParts, hp, hr]
          simp
        · have ht0 : t0 = t ∧ activeTexts rest = ts := by
            have : activeTexts (p :: rest) = t0 :: activeTexts rest := by
              simp [activeTexts, hT, ht]
            rw [this] at hact
            exact ⟨(List.cons.injEq _ _ _ _ ▸ hact).1, (List.cons.injEq _ _ _ _ ▸ hact).2⟩
          obtain ⟨ht0, hactr⟩ := ht0
          subst ht0
          have happ : appendAssistantText st t0
              = ([ChanItem.ok (.outputItemAdded (ResponseItem.message none "assistant" [])),
                  ChanItem.ok (.outputTextDelta t0)],
                 { st with assistantItem := some (.message none "assistant"
                     [ContentItem.outputText t0]) }) := by
            simp [appendAssistantText, hA]
          have hp : ssePart st p
              = ([ChanItem.ok (.outputItemAdded (ResponseItem.message none "assistant" [])),
                  ChanItem.ok (.outputTextDelta t0)],
                 { st with assistantItem := some (.message none "assistant"
                     [ContentItem.outputText t0]) }) := by
            simp [ssePart, hT, ht, happ, hfcp]
          have hr := sseParts_textOnly_pending rest
              { st with assistantItem := some (.message none "assistant"
                  [ContentItem.outputText t0]) } none "assistant"
              [ContentItem.outputText t0] hfcr rfl
          rw [hactr] at hr
          simp only [sseParts, hp, hr]
          simp

theorem lastUsage_flushAssistant (st : SseState) :
    (flushAssistant st).2.lastUsage = st.lastUsage := by
  rcases hA : st.assistantItem with _ | item <;> simp [flushAssistant, hA]

theorem activeTexts_nil_inactive (ps : List GeminiPart)
    (hfc : ∀ p ∈ ps, p.functionCall = none)
    (hts : activeTexts ps = []) :
    ps.all (fun p => !(partActive p)) = true := by
  rw [List.all_eq_true]
  intro p hp
  have ht : (match p.text with
      | some t => if t = "" then none else some t
      | none => (none : Option String)) = none := by
    have := List.filterMap_eq_nil_iff.mp hts p hp
    exact this
  simp [partInactive_of_textOnly p (hfc p hp) ht]

/-- With no `Completed` sent yet, end-of-input flushes the pending message and
emits a `Completed` from the stored usage. -/
theorem finishEnd_none (st1 : SseState) (hC : st1.completedSent = false) :
    sseEndOfInput st1
      = (flushAssistant st1).1
          ++ [ChanItem.ok (.completed "" (st1.lastUsage.map mkTokenUsage))] := by
  obtain ⟨fevs, stF, hF⟩ : ∃ e s, flushAssistant st1 = (e, s) := ⟨_, _, rfl⟩
  have hcs : stF.completedSent = false := by
    have := completedSent_flushAssistant st1
    rw [hF] at this
    simp at this
    rw [this, hC]
  have hlu : stF.lastUsage = st1.lastUsage := by
    have := lastUsage_flushAssistant st1
    rw [hF] at this
    simpa using this
  simp [sseEndOfInput, hF, hcs, hlu]

/-- A `STOP` finish with no `Completed` sent yet flushes the pending message,
emits a `Completed` from the stored usage, and leaves nothing for end-of-input. -/
theorem finishEnd_stop (st1 : SseState) (hC : st1.completedSent = false) :
    (sseFinish st1 "STOP").2.2 = false ∧
    (sseFinish st1 "STOP").1 ++ sseEndOfInput (sseFinish st1 "STOP").2.1
      = (flushAssistant st1).1
          ++ [ChanItem.ok (.completed "" (st1.lastUsage.map mkTokenUsage))] := by
  obtain ⟨fevs, stF, hF⟩ : ∃ e s, flushAssistant st1 = (e, s) := ⟨_, _, rfl⟩
  have hcs : stF.completedSent = false := by
    have := completedSent_flushAssistant st1
    rw [hF] at this
    simp at this
    rw [this, hC]
  have hai : stF.assistantItem = none := by
    have := assistantItem_flushAssistant st1
    rw [hF] at this
    simpa using this
  have hlu : stF.lastUsage = st1.lastUsage := by
    have := lastUsage_flushAssistant st1
    rw [hF] at this
    simpa using this
  have hfin : sseFinish st1 "STOP"
      = (fevs ++ [ChanItem.ok (.completed "" (st1.lastUsage.map mkTokenUsage))],
         { stF with completedSent := true, lastUsage := none }, false) := by
    simp [sseFinish, hF, hcs, hlu]
  refine ⟨by rw [hfin], ?_⟩
  rw [hfin]
  have hend : sseEndOfInput { stF with completedSent := true, lastUsage := none }
      = [] := by
    simp [sseEndOfInput, flushAssistant, hai]
  simp [hend, hF]

/-- One text-only candidate with `finishReason` absent or `STOP`, processed from
a fresh-per-chunk state: candidate events followed by the end-of-input events
form exactly the true-streaming replay sequence. -/
theorem sseCandidate_textOnly_run (st : SseState) (c : GeminiCandidate)
    (hA : st.assistantItem = none) (hC : st.completedSent = false)
    (hfc : ∀ p ∈ candParts c, p.functionCall = none)
    (hfin : c.finishReason = none ∨ c.finishReason = some "STOP") :
    (sseCandidate st c).2.2 = false ∧
    (sseCandidate st c).1 ++ sseEndOfInput (sseCandidate st c).2.1
      = streamReplayEvents (activeTexts (candParts c)) st.lastUsage := by
  have hflushSt : flushAssistant st = ([], st) := by simp [flushAssistant, hA]
  have hcontentEq : (match c.content with
      | some content =>
        match content.parts with
        | some parts => sseParts st parts
        | none => ([], st)
      | none => ([], st)) = sseParts st (candParts c) := by
    rcases hCC : c.content with _ | content
    · simp [candParts, hCC, sseParts]
    · rcases hPP : content.parts with _ | ps
      · simp [candParts, hCC, hPP, sseParts]
      · simp [candParts, hCC, hPP]
  rcases hts : activeTexts (candParts c) with _ | ⟨t, ts'⟩
  · have hinact := activeTexts_nil_inactive _ hfc hts
    have hparts : sseParts st (candParts c) = ([], st) := sseParts_inactive _ st hinact
    rw [hparts] at hcontentEq
    rcases hfin with hfin | hfin
    · have hcand : sseCandidate st c = ([], st, false) := by
        simp only [sseCandidate, hcontentEq, hfin]
      rw [hcand]
      have hend := finishEnd_none st hC
      rw [hflushSt] at hend
      exact ⟨rfl, by simpa [streamReplayEvents] using hend⟩
    · obtain ⟨hhalt, heq⟩ := finishEnd_stop st hC
      obtain ⟨fe, sf, hf, hfe⟩ : ∃ e s h, sseFinish st "STOP" = (e, s, h) :=
        ⟨_, _, _, rfl⟩
      have hcand : sseCandidate st c = ([] ++ fe, sf, hf) := by
        simp only [sseCandidate, hcontentEq, hfin, hfe]
      rw [hfe] at hhalt heq
      dsimp only at hhalt heq
      rw [hcand]
      refine ⟨by simpa using hhalt, ?_⟩
      rw [hflushSt] at heq
      dsimp only at heq
      simp only [List.nil_append]
      rw [heq]
      simp [streamReplayEvents]
  · have hps := sseParts_textOnly_none (candParts c) st t ts' hfc hA hts
    rw [hps] at hcontentEq
    have hstP : ({ st with assistantItem := some (ResponseItem.message none "assistant"
        ((t :: ts').map ContentItem.outputText)) } : SseState).completedSent = false := by
      simpa using hC
    have hflushP : flushAssistant { st with assistantItem := some (ResponseItem.message
          none "assistant" ((t :: ts').map ContentItem.outputText)) }
        = ([ChanItem.ok (.outputItemDone (ResponseItem.message none "assistant"
            ((t :: ts').map ContentItem.outputText)))],
           { st with assistantItem := none }) := by
      simp [flushAssistant]
    rcases hfin with hfin | hfin
    · have hcand : sseCandidate st c
          = (ChanItem.ok (.outputItemAdded (ResponseItem.message none "assistant" [])) ::
              ((t :: ts').map (fun s => ChanItem.ok (.outputTextDelta s))),
             { st with assistantItem := some (ResponseItem.message none "assistant"
                 ((t :: ts').map ContentItem.outputText)) }, false) := by
        simp only [sseCandidate, hcontentEq, hfin]
      rw [hcand]
      refine ⟨rfl, ?_⟩
      have hend := finishEnd_none { st with assistantItem := some (ResponseItem.message
          none "assistant" ((t :: ts').map ContentItem.outputText)) } hstP
      rw [hflushP] at hend
      dsimp only at hend
      rw [hend]
      simp [streamReplayEvents]
    · obtain ⟨hhalt, heq⟩ := finishEnd_stop { st with assistantItem := some (ResponseItem.message none "assistant" ((t :: ts').map ContentItem.outputText)) } hstP
      obtain ⟨fe, sf, hf, hfe⟩ : ∃ e s h,
          sseFinish { st with assistantItem := some (ResponseItem.message none "assistant"
            ((t :: ts').map ContentItem.outputText)) } "STOP" = (e, s, h) :=
        ⟨_, _, _, rfl⟩
      have hcand : sseCandidate st c
          = ((ChanItem.ok (.outputItemAdded (ResponseItem.message none "assistant" [])) ::
              ((t :: ts').map (fun s => ChanItem.ok (.outputTextDelta s)))) ++ fe,
             sf, hf) := by
        simp only [sseCandidate, hcontentEq, hfin, hfe]
      rw [hfe] at hhalt heq
      dsimp only at hhalt heq
      rw [hcand]
      refine ⟨by simpa using hhalt, ?_⟩
      rw [hflushP] at heq
      dsimp only at heq
      simp only [List.cons_append, List.append_assoc]
      rw [heq]
      simp [streamReplayEvents]

/-- True streaming of a single parsed chunk with one text-only candidate whose
finish reason is absent or `STOP`: the whole run is the streaming replay
sequence over the candidate's non-empty texts and the response's usage. -/
theorem processGeminiSse_textOnly (r : GeminiResponse) (c : GeminiCandidate)
    (hcand : r.candidates = some [c])
    (hfc : ∀ p ∈ candParts c, p.functionCall = none)
    (hfin : c.finishReason = none ∨ c.finishReason = some "STOP") :
    processGeminiSse [ChunkEvent.chunk (ChunkData.parsed r)]
      = streamReplayEvents (activeTexts (candParts c)) r.usageMetadata := by
  have hmain : ∀ stU : SseState, stU.assistantItem = none → stU.completedSent = false →
      stU.lastUsage = r.usageMetadata →
      (sseCandidates stU [c]).2.2 = false ∧
      (sseCandidates stU [c]).1 ++ sseEndOfInput (sseCandidates stU [c]).2.1
        = streamReplayEvents (activeTexts (candParts c)) r.usageMetadata := by
    intro stU hA hC hU
    obtain ⟨hh, heq⟩ := sseCandidate_textOnly_run stU c hA hC hfc hfin
    obtain ⟨e1, s1, h1, hc1⟩ : ∃ e s h, sseCandidate stU c = (e, s, h) := ⟨_, _, _, rfl⟩
    rw [hc1] at hh heq
    dsimp only at hh heq
    subst hh
    have hcs : sseCandidates stU [c] = (e1 ++ [], s1, false) := by
      simp only [sseCandidates, hc1, Bool.false_eq_true, if_false]
    rw [hcs]
    rw [hU] at heq
    exact ⟨rfl, by simpa using heq⟩
  rcases hU : r.usageMetadata with _ | u
  · obtain ⟨hh, heq⟩ := hmain initSseState rfl rfl (by rw [hU]; rfl)
    obtain ⟨e1, s1, h1, hc1⟩ : ∃ e s h, sseCandidates initSseState [c] = (e, s, h) :=
      ⟨_, _, _, rfl⟩
    rw [hc1] at hh heq
    dsimp only at hh heq
    subst hh
    have hchunk : sseChunkData initSseState (ChunkData.parsed r) = (e1, s1, false) := by
      simp only [sseChunkData, hU, hcand, hc1]
    simp only [processGeminiSse, sseRun, hchunk]
    rw [hU] at heq
    simpa [sseRun] using heq
  · obtain ⟨hh, heq⟩ := hmain { initSseState with lastUsage := some u } rfl rfl
        (by rw [hU])
    obtain ⟨e1, s1, h1, hc1⟩ : ∃ e s h,
        sseCandidates { initSseState with lastUsage := some u } [c] = (e, s, h) :=
      ⟨_, _, _, rfl⟩
    rw [hc1] at hh heq
    dsimp only at hh heq
    subst hh
    have hchunk : sseChunkData initSseState (ChunkData.parsed r) = (e1, s1, false) := by
      simp only [sseChunkData, hU, hcand, hc1]
    simp only [processGeminiSse, sseRun, hchunk]
    rw [hU] at heq
    simpa [sseRun] using heq

/-- `normalizeReplay` turns the streaming replay sequence into the batch replay
sequence: drop the `OutputItemAdded`, join the closed message's texts. -/
theorem normalizeReplay_streamReplay (ts : List String) (u : Option GeminiUsageMetadata) :
    normalizeReplay (streamReplayEvents ts u) = batchReplayEvents ts u := by
  have hdeltas : ∀ l : List String,
      ((l.map (fun t => ChanItem.ok (.outputTextDelta t))).filter
          (fun i => !(isAddedItem i))).map (fun i =>
        match i with
        | .ok (.outputItemDone item) => ChanItem.ok (.outputItemDone (joinMessageContent item))
        | x => x)
        = l.map (fun t => ChanItem.ok (.outputTextDelta t)) := by
    intro l
    induction l with
    | nil => rfl
    | cons t rest ih =>
        have hstep : List.filter (fun i => !(isAddedItem i))
            ((t :: rest).map (fun s => ChanItem.ok (.outputTextDelta s)))
            = ChanItem.ok (.outputTextDelta t) ::
              List.filter (fun i => !(isAddedItem i))
                (rest.map (fun s => ChanItem.ok (.outputTextDelta s))) := rfl
        rw [hstep, List.map_cons, ih]
        rfl
  have hjoin : contentFullText (ts.map ContentItem.outputText) = String.join ts := by
    rw [stringJoin_eq_strConcat]
    unfold contentFullText contentTexts
    rw [List.map_map]
    have : contentText ∘ ContentItem.outputText = id := by
      funext t
      rfl
    rw [this, List.map_id]
  cases ts with
  | nil => rfl
  | cons t ts' =>
      have hD := hdeltas (t :: ts')
      have hsplit : streamReplayEvents (t :: ts') u
          = [ChanItem.ok (.outputItemAdded (ResponseItem.message none "assistant" []))]
            ++ (((t :: ts').map (fun s => ChanItem.ok (.outputTextDelta s)))
            ++ ([ChanItem.ok (.outputItemDone (ResponseItem.message none "assistant"
                ((t :: ts').map ContentItem.outputText)))]
            ++ [ChanItem.ok (.completed "" (u.map mkTokenUsage))])) := by
        simp [streamReplayEvents]
      rw [hsplit]
      simp only [normalizeReplay, List.filter_append, List.map_append]
      have s1 : List.filter (fun i => !(isAddedItem i))
          [ChanItem.ok (.outputItemAdded (ResponseItem.message none "assistant" []))]
          = [] := rfl
      have s3 : List.filter (fun i => !(isAddedItem i))
          [ChanItem.ok (.outputItemDone (ResponseItem.message none "assistant"
            ((t :: ts').map ContentItem.outputText)))]
          = [ChanItem.ok (.outputItemDone (ResponseItem.message none "assistant"
            ((t :: ts').map ContentItem.outputText)))] := rfl
      have s4 : List.filter (fun i => !(isAddedItem i))
          [ChanItem.ok (.completed "" (u.map mkTokenUsage))]
          = [ChanItem.ok (.completed "" (u.map mkTokenUsage))] := rfl
      rw [s1, s3, s4, hD]
      simp only [List.map_cons] at hjoin
      simp [joinMessageContent, hjoin, batchReplayEvents]

/-- The batch part loop over function-call-free parts: one delta per non-empty
text, counter untouched, texts accumulated in order. -/
theorem batchParts_textOnly :
    ∀ (ps : List GeminiPart) (counter : Nat) (acc : List String),
    (∀ p ∈ ps, p.functionCall = none) →
    batchParts counter acc ps
      = ((activeTexts ps).map (fun t => ChanItem.ok (.outputTextDelta t)),
         counter, acc ++ activeTexts ps) := by
  intro ps
  induction ps with
  | nil => intro counter acc _; simp [batchParts, activeTexts]
  | cons p rest ih =>
      intro counter acc hfc
      have hfcp : p.functionCall = none := hfc p (by simp)
      have hfcr : ∀ q ∈ rest, q.functionCall = none := fun q hq => hfc q (by simp [hq])
      rcases hT : p.text with _ | t
      · have hp : batchPart counter acc p = ([], counter, acc) := by
          simp [batchPart, hT, hfcp]
        have hact : activeTexts (p :: rest) = activeTexts rest := by
          simp [activeTexts, hT]
        rw [hact]
        have hr := ih counter acc hfcr
        simp only [batchParts, hp, hr]
        simp
      · by_cases ht : t = ""
        · subst ht
          have hp : batchPart counter acc p = ([], counter, acc) := by
            simp [batchPart, hT, hfcp]
          have hact : activeTexts (p :: rest) = activeTexts rest := by
            simp [activeTexts, hT]
          rw [hact]
          have hr := ih counter acc hfcr
          simp only [batchParts, hp, hr]
          simp
        · have hp : batchPart counter acc p
              = ([ChanItem.ok (.outputTextDelta t)], counter, acc ++ [t]) := by
            simp [batchPart, hT, ht, hfcp]
          have hact : activeTexts (p :: rest) = t :: activeTexts rest := by
            simp [activeTexts, hT, ht]
          rw [hact]
          have hr := ih counter (acc ++ [t]) hfcr
          simp only [batchParts, hp, hr]
          simp [List.append_assoc]

/-- The batch content block of a function-call-free candidate: the deltas then,
if any text was collected, one aggregated joined message. -/
theorem batchCandidateContent_textOnly (counter : Nat) (c : GeminiCandidate)
    (hfc : ∀ p ∈ candParts c, p.functionCall = none) :
    batchCandidateContent counter c
      = ((if (activeTexts (candParts c)).isEmpty then ([] : List ChanItem) else
          (activeTexts (candParts c)).map (fun t => ChanItem.ok (.outputTextDelta t))
            ++ [ChanItem.ok (.outputItemDone (ResponseItem.message none "assistant"
                [ContentItem.outputText (String.join (activeTexts (candParts c)))]))]),
         counter) := by
  rcases hCC : c.content with _ | content
  · have hcp : candParts c = [] := by simp [candParts, hCC]
    rw [hcp]
    simp [batchCandidateContent, hCC, activeTexts]
  · rcases hPP : content.parts with _ | ps
    · have hcp : candParts c = [] := by simp [candParts, hCC, hPP]
      rw [hcp]
      simp [batchCandidateContent, hCC, hPP, activeTexts]
    · have hcp : candParts c = ps := by simp [candParts, hCC, hPP]
      rw [hcp]
      rw [hcp] at hfc
      have hbp := batchParts_textOnly ps counter [] hfc
      simp only [batchCandidateContent, hCC, hPP, hbp, List.nil_append]
      rcases hts : activeTexts ps with _ | ⟨t, ts'⟩
      · simp
      · simp

/-- A `STOP` or absent finish reason never halts the batch emitter. -/
theorem batchFinish_textOnly (c : GeminiCandidate)
    (hfin : c.finishReason = none ∨ c.finishReason = some "STOP") :
    batchFinish c = ([], false) := by
  rcases hfin with hfin | hfin <;> simp [batchFinish, hfin]

/-- Batch replay of a single text-only candidate with finish reason absent or
`STOP`: deltas, the aggregated joined message, then the final `Completed`. -/
theorem emitGeminiEvents_textOnly (r : GeminiResponse) (c : GeminiCandidate)
    (hcand : r.candidates = some [c])
    (hfc : ∀ p ∈ candParts c, p.functionCall = none)
    (hfin : c.finishReason = none ∨ c.finishReason = some "STOP") :
    emitGeminiEvents r = batchReplayEvents (activeTexts (candParts c)) r.usageMetadata := by
  have hcc := batchCandidateContent_textOnly 0 c hfc
  have hbf := batchFinish_textOnly c hfin
  have hcands : batchCandidates 0 [c]
      = ((if (activeTexts (candParts c)).isEmpty then ([] : List ChanItem) else
          (activeTexts (candParts c)).map (fun t => ChanItem.ok (.outputTextDelta t))
            ++ [ChanItem.ok (.outputItemDone (ResponseItem.message none "assistant"
                [ContentItem.outputText (String.join (activeTexts (candParts c)))]))])
          ++ [] ++ [], false) := by
    simp only [batchCandidates, hcc, hbf, Bool.false_eq_true, if_false]
  simp only [emitGeminiEvents, hcand, hcands, Bool.false_eq_true, if_false,
    List.append_nil]
  rfl

/-- A response with one candidate: a single `"Hello"` text part, `STOP`. -/
def c1Part : GeminiPart := { text := some "Hello", functionCall := none }

def c1Content : GeminiContent := { role := some "model", parts := some [c1Part] }

def c1Cand : GeminiCandidate :=
  { content := some c1Content, finishReason := some "STOP" }

def c1Resp : GeminiResponse :=
  { candidates := some [c1Cand], usageMetadata := none }

/-- The raw event sequences differ: on the same single-candidate response the
streaming parser emits an `OutputItemAdded` (and per-fragment message content)
that the batch emitter never produces. -/
theorem c1_counterexample :
    emitGeminiEvents c1Resp
      ≠ processGeminiSse [ChunkEvent.chunk (ChunkData.parsed c1Resp)] := by
  intro h
  have hlen : (emitGeminiEvents c1Resp).length
      = (processGeminiSse [ChunkEvent.chunk (ChunkData.parsed c1Resp)]).length :=
    congrArg List.length h
  have h3 : (emitGeminiEvents c1Resp).length = 3 := by decide
  have h4 : (processGeminiSse [ChunkEvent.chunk (ChunkData.parsed c1Resp)]).length
      = 4 := by decide
  rw [h3, h4] at hlen
  exact absurd hlen (by decide)

/-- **C1** (amended): for a response with a single function-call-free candidate
whose finish reason is absent or `STOP`, the batch emitter replays the event
contract of the streaming parser up to the structural differences the consumer
can observe: dropping the `OutputItemAdded` events and aggregating each closed
message's fragments into one joined text part maps the true-streaming sequence
onto the batch sequence exactly (deltas, aggregated message-done, then exactly
one `Completed` with the response's usage). -/
theorem c1_batch_replay_refines_streaming (r : GeminiResponse) (c : GeminiCandidate)
    (hcand : r.candidates = some [c])
    (hfc : ∀ p ∈ candParts c, p.functionCall = none)
    (hfin : c.finishReason = none ∨ c.finishReason = some "STOP") :
    emitGeminiEvents r
      = normalizeReplay (processGeminiSse [ChunkEvent.chunk (ChunkData.parsed r)]) := by
  rw [processGeminiSse_textOnly r c hcand hfc hfin, normalizeReplay_streamReplay,
    emitGeminiEvents_textOnly r c hcand hfc hfin]

theorem c1_batch_replay_refines_streaming_witness :
    c1Resp.candidates = some [c1Cand] ∧
    emitGeminiEvents c1Resp
      = normalizeReplay (processGeminiSse [ChunkEvent.chunk (ChunkData.parsed c1Resp)]) :=
  ⟨rfl, c1_batch_replay_refines_streaming c1Resp c1Cand rfl
    (by intro p hp; simp [candParts, c1Cand, c1Content] at hp; subst hp; rfl)
    (Or.inr (by rfl))⟩
